import Mathlib

/-!
Verification of the Region Annotation Engine
(src/c++/lib/quantify/QuantifyRegions.cpp, class variant::QuantifyRegions).

The development is a shallow embedding: the C++ state behind
QuantifyRegions::QuantifyRegionsImpl becomes an explicit record, and the
member functions load, annotate, hasRegions and getRegionSize become Lean
functions threading that record.  Instances of std::unordered_map are
modelled as association lists (lookup by the first matching key, insertion
by appending, which is observationally equal because the C++ code only
inserts a key after a failed find).  Machine integers (int64_t) are
modelled as Int, size_t accumulators as Nat.
-/

namespace Quantify

/-- Association-list lookup, modelling std::unordered_map::find:
returns the value of the first pair whose key matches. -/
def alook {κ β : Type} [DecidableEq κ] (k : κ) : List (κ × β) → Option β
  | [] => none
  | (k', v) :: rest => if k = k' then some v else alook k rest

/-- Split a list of characters at a separator, keeping empty fragments. -/
def splitCharAux (sep : Char) : List Char → List Char → List (List Char)
  | [], acc => [acc.reverse]
  | c :: cs, acc =>
      if c = sep then acc.reverse :: splitCharAux sep cs []
      else splitCharAux sep cs (c :: acc)

/-- Model of hap.py's stringutil::split with a single separator character:
the helper drops empty fragments (its return-empty flag defaults false). -/
def splitDrop (sep : Char) (s : String) : List String :=
  ((splitCharAux sep s.toList []).map (fun l => String.mk l)).filter (fun t => t ≠ "")

/-- Value of the longest digit prefix of a character list, or none if the
list does not start with a digit. -/
def leadingDigits (cs : List Char) : Option Nat :=
  let ds := cs.takeWhile Char.isDigit
  if ds.isEmpty then none
  else some (ds.foldl (fun a c => a * 10 + (c.toNat - 48)) 0)

/-- Model of std::stoll: skip leading spaces/tabs, optional sign, then the
longest digit prefix; none models the std::invalid_argument exception.
(std::out_of_range cannot occur in the model because Int is unbounded.) -/
def stoll (s : String) : Option Int :=
  let cs := s.toList.dropWhile (fun c => c = ' ' ∨ c = '\t')
  match cs with
  | '-' :: rest => (leadingDigits rest).map (fun n => -(n : Int))
  | '+' :: rest => (leadingDigits rest).map (fun n => (n : Int))
  | rest => (leadingDigits rest).map (fun n => (n : Int))

/-- Last path component (after the last slash), for boost::filesystem. -/
def lastComponentAux (cur : List Char) : List Char → List Char
  | [] => cur
  | c :: cs => if c = '/' then lastComponentAux [] cs else lastComponentAux (cur ++ [c]) cs

/-- Drop the suffix starting at the last dot (the extension), if any. -/
def dropFromLastDot (cs : List Char) : List Char :=
  let r := cs.reverse
  if r.contains '.' then ((r.dropWhile (fun c => c != '.')).drop 1).reverse else cs

/-- Model of boost::filesystem::path(filename).stem().string(): the file
name without directory and without its last extension. -/
def stem (filename : String) : String :=
  let base := lastComponentAux [] filename.toList
  if base = ['.'] ∨ base = ['.', '.'] then String.mk base
  else String.mk (dropFromLastDot base)

/-- A labeled closed interval, as passed to IntervalBuffer::addInterval. -/
structure Interval where
  start : Int
  stop : Int
  label : Nat
deriving Repr, DecidableEq

/-- Length in nucleotides of a stored closed interval: stop - start + 1. -/
def ivlen (iv : Interval) : Nat := (iv.stop - iv.start + 1).toNat

/-- Modelled from the spec: the interval index intervals::IntervalBuffer
(helpers/IntervalBuffer.hh) is an external collaborator whose sources are
not in the repository snapshot; the spec fixes its contract as
addInterval(start, stop, labelId), hasOverlap(start, stop, labelId), and
advance(pos), the latter retiring intervals wholly left of pos. -/
structure IntervalBuffer where
  ivs : List Interval
deriving Repr, DecidableEq

/-- Modelled from the spec: insertion of a labeled closed interval. -/
def IntervalBuffer.addInterval (b : IntervalBuffer) (start stop : Int) (label : Nat) :
    IntervalBuffer :=
  ⟨b.ivs ++ [⟨start, stop, label⟩]⟩

/-- Modelled from the spec: overlap query of [start, stop] by label id. -/
def IntervalBuffer.hasOverlap (b : IntervalBuffer) (start stop : Int) (label : Nat) : Bool :=
  b.ivs.any (fun iv => iv.label = label ∧ iv.start ≤ stop ∧ start ≤ iv.stop)

/-- Modelled from the spec: retire intervals wholly left of pos. -/
def IntervalBuffer.advance (b : IntervalBuffer) (pos : Int) : IntervalBuffer :=
  ⟨b.ivs.filter (fun iv => pos ≤ iv.stop)⟩

/-- The label-name-to-id map (std::unordered_map from string to size_t). -/
abbrev LabelMap := List (String × Nat)

/-- The engine state QuantifyRegions::QuantifyRegionsImpl.  The field
current_chr models the iterator member: none is ib.end(), and some chr a
valid iterator to the entry of chromosome chr. -/
structure QuantifyRegionsImpl where
  names : List String
  label_map : LabelMap
  ib : List (String × IntervalBuffer)
  current_chr : Option String
  region_sizes : List (Nat × Nat)
  current_pos : Int
deriving Repr, DecidableEq

/-- The freshly constructed engine: current_chr is ib.end(), position -1. -/
def initImpl : QuantifyRegionsImpl :=
  { names := [], label_map := [], ib := [], current_chr := none,
    region_sizes := [], current_pos := -1 }

/-- Model of QuantifyRegions::hasRegions: the name is in the label map. -/
def hasRegions (impl : QuantifyRegionsImpl) (rname : String) : Bool :=
  (alook rname impl.label_map).isSome

/-- Model of QuantifyRegions::getRegionSize: accumulated size for a label,
0 if the label or its size entry is unknown. -/
def getRegionSize (impl : QuantifyRegionsImpl) (region_name : String) : Nat :=
  match alook region_name impl.label_map with
  | none => 0
  | some id =>
    match alook id impl.region_sizes with
    | none => 0
    | some s => s

/-- Total lookup into the region-size accumulator (missing id counts 0). -/
def sizesLookup (m : List (Nat × Nat)) (id : Nat) : Nat := (alook id m).getD 0

/-- Pointwise addition at a key of the size accumulator (the entry found
by the C++ iterator; keys are unique, so updating every match is equal). -/
def bumpAll (m : List (Nat × Nat)) (id sz : Nat) : List (Nat × Nat) :=
  match m with
  | [] => []
  | p :: rest => (if p.1 = id then (p.1, p.2 + sz) else p) :: bumpAll rest id sz

/-- The size-accumulator update of load (lines 207-215 and 220-228): insert
the size if the id is new, otherwise add to the existing entry. -/
def bumpSize (m : List (Nat × Nat)) (id sz : Nat) : List (Nat × Nat) :=
  match alook id m with
  | none => m ++ [(id, sz)]
  | some _ => bumpAll m id sz

/-- The ib.emplace of an empty buffer when a chromosome is first seen. -/
def ibEnsureChr (m : List (String × IntervalBuffer)) (chr : String) :
    List (String × IntervalBuffer) :=
  if (alook chr m).isSome then m else m ++ [(chr, ⟨[]⟩)]

/-- Update the (unique) entry of a key in place, as through a C++ iterator. -/
def updateFirst (m : List (String × IntervalBuffer)) (chr : String)
    (f : IntervalBuffer → IntervalBuffer) : List (String × IntervalBuffer) :=
  match m with
  | [] => []
  | p :: rest => if p.1 = chr then (p.1, f p.2) :: rest else p :: updateFirst rest chr f

/-- Insertion of one interval into one chromosome's buffer through the
iterator obtained by find/emplace. -/
def ibAddInterval (m : List (String × IntervalBuffer)) (chr : String)
    (start stop : Int) (label : Nat) : List (String × IntervalBuffer) :=
  updateFirst m chr (fun b => b.addInterval start stop label)

/-- One credit-and-insert step of load: add stop - start + 1 to the id's
size accumulator and insert the interval under that id. -/
def creditAndInsert (impl : QuantifyRegionsImpl) (chr : String)
    (start stop : Int) (id : Nat) : QuantifyRegionsImpl :=
  { impl with
    region_sizes := bumpSize impl.region_sizes id (ivlen ⟨start, stop, id⟩),
    ib := ibAddInterval impl.ib chr start stop id }

/-- The interval-insertion block of load (lines 207-230): credit and insert
under the per-line label id, and when that id differs from the file's base
label id, also credit and insert under the base id. -/
def insertStep (impl : QuantifyRegionsImpl) (chr : String) (start stop : Int)
    (this_label_id label_id : Nat) : QuantifyRegionsImpl :=
  let impl := creditAndInsert impl chr start stop this_label_id
  if this_label_id ≠ label_id then creditAndInsert impl chr start stop label_id
  else impl

/-- Label-id resolution (lines 134-145 and 192-206): look the label up in
the session-local map; if absent, its id is the current length of names,
the name is pushed, and the binding appended. -/
def resolveLabel (names : List String) (lm : LabelMap) (lbl : String) :
    Nat × List String × LabelMap :=
  match alook lbl lm with
  | none => (names.length, names ++ [lbl], lm ++ [(lbl, names.length)])
  | some id => (id, names, lm)

/-- The fixchr chromosome-name normalization (lines 154-172): prepend
the prefix chr when the name starts with 1-9, X, Y or M. -/
def fixchrName (s : String) : String :=
  match s.toList with
  | [] => s
  | c :: _ =>
    if c = '1' ∨ c = '2' ∨ c = '3' ∨ c = '4' ∨ c = '5' ∨ c = '6' ∨ c = '7' ∨
       c = '8' ∨ c = '9' ∨ c = 'X' ∨ c = 'Y' ∨ c = 'M'
    then ("chr" ++ s) else s

/-- Syntactic classification of one input line of a region file
(lines 146-246): short lines are ignored outright; lines with at least 3
columns whose coordinates fail std::stoll or satisfy start > stop are
skipped after the chromosome buffer was already emplaced; well-formed
lines carry chromosome, closed interval and the optional 4th column. -/
inductive LineStep where
  | short
  | bad (chrRaw : String)
  | good (chrRaw : String) (start stop : Int) (sub : Option String)
deriving Repr, DecidableEq

/-- Parse one line the way the loop body of load reads it: tab-split with
empty fields dropped, at least 3 columns, start = stoll(v[1]) and
stop = stoll(v[2]) - 1, invalid or inverted coordinates skipped. -/
def lineView (line : String) : LineStep :=
  let v := splitDrop '\t' line
  if 3 ≤ v.length then
    match stoll (v.getD 1 ""), stoll (v.getD 2 "") with
    | some b, some e =>
      if b > e - 1 then LineStep.bad (v.getD 0 "")
      else LineStep.good (v.getD 0 "") b (e - 1)
             (if 3 < v.length then some (v.getD 3 "") else none)
    | _, _ => LineStep.bad (v.getD 0 "")
  else LineStep.short

/-- Processing of one input line of a region file (lines 146-246): emplace
the chromosome buffer, resolve the per-line label (the compound label
derived from the 4th column when the file is not fixed-label, else the base
label), then credit and insert.  The state is the engine record plus the
session-local label map. -/
def processLine (fixchr fixed_label : Bool) (label : String) (label_id : Nat)
    (st : QuantifyRegionsImpl × LabelMap) (line : String) :
    QuantifyRegionsImpl × LabelMap :=
  let impl := st.1
  let lm := st.2
  match lineView line with
  | LineStep.short => (impl, lm)
  | LineStep.bad chrRaw =>
      ({ impl with ib := ibEnsureChr impl.ib (if fixchr then fixchrName chrRaw else chrRaw) },
       lm)
  | LineStep.good chrRaw start stop sub =>
      let chr := if fixchr then fixchrName chrRaw else chrRaw
      let impl := { impl with ib := ibEnsureChr impl.ib chr }
      let r :=
        match sub with
        | some s4 =>
            if fixed_label = false then resolveLabel impl.names lm (label ++ "_" ++ s4)
            else (label_id, impl.names, lm)
        | none => (label_id, impl.names, lm)
      (insertStep { impl with names := r.2.1 } chr start stop r.1 label_id, r.2.2)

/-- Fold processLine over the lines of one file. -/
def processLines (fixchr fixed_label : Bool) (label : String) (label_id : Nat) :
    QuantifyRegionsImpl × LabelMap → List String → QuantifyRegionsImpl × LabelMap
  | st, [] => st
  | st, line :: rest =>
      processLines fixchr fixed_label label label_id
        (processLine fixchr fixed_label label label_id st line) rest

/-- Region-spec token parsing (lines 87-117): none models the fatal
error for an invalid region name; otherwise (label, filename, fixed_label).
Note the test for the label CONF lives only in the LABEL:path branch: a
base-name-derived label is never marked fixed. -/
def parseToken (f : String) : Option (String × String × Bool) :=
  let v := splitDrop ':' f
  match v with
  | [] => none
  | [only] => some (stem only, only, false)
  | l :: fn :: _ =>
    match l.toList with
    | '=' :: rest => some (String.mk rest, fn, true)
    | _ => some (l, fn, if l = "CONF" then true else false)

/-- The world of openable files: a file name maps to its lines, or to
none when hts_open would fail. -/
abbrev Filesystem := String → Option (List String)

/-- Outcome of processing one token or a token list inside load: fatal
models the designed process abort of error(...); crash models the undefined
behaviour of passing the unchecked NULL handle of a failed hts_open to
hts_getline (lines 119-146 contain no NULL test). -/
inductive LoadStep where
  | ok (impl : QuantifyRegionsImpl) (lm : LabelMap)
  | fatal (msg : String)
  | crash
deriving Repr, DecidableEq

/-- Engine extraction for token-level load steps. -/
def LoadStep.implOf : LoadStep → QuantifyRegionsImpl
  | LoadStep.ok i _ => i
  | LoadStep.fatal _ => initImpl
  | LoadStep.crash => initImpl

/-- Label-map extraction for token-level load steps. -/
def LoadStep.lmOf : LoadStep → LabelMap
  | LoadStep.ok _ lm => lm
  | LoadStep.fatal _ => []
  | LoadStep.crash => []

/-- Processing of one region-spec token of load (lines 85-251): parse the
token, open the file, resolve the base label id, then process every line. -/
def processToken (fs : Filesystem) (fixchr : Bool)
    (impl : QuantifyRegionsImpl) (lm : LabelMap) (f : String) : LoadStep :=
  match parseToken f with
  | none => LoadStep.fatal (("Invalid region name: ") ++ f)
  | some (label, filename, fixed_label) =>
    match fs filename with
    | none => LoadStep.crash
    | some lines =>
      let r := resolveLabel impl.names lm label
      let st := processLines fixchr fixed_label label r.1 ({ impl with names := r.2.1 }, r.2.2) lines
      LoadStep.ok st.1 st.2

/-- Left-to-right processing of all tokens of one load call. -/
def loadTokens (fs : Filesystem) (fixchr : Bool) :
    QuantifyRegionsImpl → LabelMap → List String → LoadStep
  | impl, lm, [] => LoadStep.ok impl lm
  | impl, lm, f :: rest =>
    match processToken fs fixchr impl lm f with
    | LoadStep.ok impl' lm' => loadTokens fs fixchr impl' lm' rest
    | LoadStep.fatal m => LoadStep.fatal m
    | LoadStep.crash => LoadStep.crash

/-- Result of a whole load call. -/
inductive LoadResult where
  | ok (impl : QuantifyRegionsImpl)
  | fatal (msg : String)
  | crash
deriving Repr, DecidableEq

/-- Model of QuantifyRegions::load(rnames, fixchr) (lines 82-253): build a
fresh session-local label map, process every token, and finally replace
the engine's label_map wholesale with the local map. -/
def load (impl : QuantifyRegionsImpl) (fs : Filesystem)
    (rnames : List String) (fixchr : Bool) : LoadResult :=
  match loadTokens fs fixchr impl [] rnames with
  | LoadStep.ok impl' lm => LoadResult.ok { impl' with label_map := lm }
  | LoadStep.fatal m => LoadResult.fatal m
  | LoadStep.crash => LoadResult.crash

/-- Engine extraction for load results. -/
def LoadResult.implOf : LoadResult → QuantifyRegionsImpl
  | LoadResult.ok i => i
  | LoadResult.fatal _ => initImpl
  | LoadResult.crash => initImpl

/-- Lexicographic strict order on character lists, the order of
std::string's operator less-than. -/
def charListLt : List Char → List Char → Bool
  | [], [] => false
  | [], _ :: _ => true
  | _ :: _, [] => false
  | a :: as, b :: bs => if a < b then true else if b < a then false else charListLt as bs

/-- Lexicographic strict order on strings (by code points). -/
def strLt (a b : String) : Bool := charListLt a.data b.data

/-- Insertion into a std::set of strings: keep the list sorted and
duplicate free under the string order. -/
def setInsert (x : String) : List String → List String
  | [] => [x]
  | y :: ys =>
      if strLt x y then x :: y :: ys
      else if x = y then y :: ys
      else y :: setInsert x ys

/-- Collect a list into a std::set of strings. -/
def setOfList (l : List String) : List String :=
  l.foldl (fun s x => setInsert x s) []

/-- The query loop of annotate (lines 282-288): for every label id i in
ascending order, a positive hasOverlap contributes names[i]. -/
def collectMatching (names : List String) (b : IntervalBuffer)
    (refstart refend : Int) (i : Nat) : List String :=
  match names with
  | [] => []
  | n :: rest =>
      if b.hasOverlap refstart refend i then
        n :: collectMatching rest b refstart refend (i + 1)
      else collectMatching rest b refstart refend (i + 1)

/-- The tag-string accumulation of annotate (lines 296-303): a comma is
appended only when the accumulator is non-empty so far. -/
def renderTag (rs : List String) : String :=
  rs.foldl (fun acc r => (if acc = "" then acc else acc ++ (",")) ++ r) ""

/-- Plain comma-joining (what the spec's words describe). -/
def joinComma : List String → String
  | [] => ""
  | [x] => x
  | x :: y :: xs => x ++ (",") ++ joinComma (y :: xs)

/-- The name-sorted set of matching labels of one query, as a list. -/
def regionsNames (impl : QuantifyRegionsImpl) (chr : String)
    (refstart refend : Int) : List String :=
  match alook chr impl.ib with
  | none => []
  | some b => setOfList (collectMatching impl.names b refstart refend 0)

/-- Result of QuantifyRegions::annotate: the ok form carries the new state
and the Regions INFO value (none models the explicit clearing through a
null update); fatal models error(...). -/
inductive AnnotateResult where
  | ok (impl : QuantifyRegionsImpl) (regionsTag : Option String)
  | fatal (msg : String)
deriving Repr, DecidableEq

/-- The per-chromosome body of QuantifyRegions::annotate
(lines 276-311): ordering check, per-label overlap queries, the watermark
advance, and the rendering of the Regions tag. -/
def annotateCore (impl : QuantifyRegionsImpl) (chr : String)
    (refstart refend : Int) : AnnotateResult :=
  match alook chr impl.ib with
  | none => AnnotateResult.ok impl none
  | some b =>
    if refstart < impl.current_pos then
      AnnotateResult.fatal (("Variants out of order at ") ++ chr)
    else
      let regions := setOfList (collectMatching impl.names b refstart refend 0)
      let impl2 :=
        if 1 < refstart then
          { impl with
            current_pos := refstart - 1,
            ib := updateFirst impl.ib chr (fun bb => bb.advance (refstart - 1)) }
        else impl
      let tag := renderTag regions
      AnnotateResult.ok impl2 (if tag = "" then none else some tag)

/-- Model of QuantifyRegions::annotate: the reset branch (lines 269-274)
followed by the core.  Faithful to the source, the current-chromosome
member is read but never written anywhere in the file, so on every
reachable engine the reset condition holds at every call. -/
def annotate (impl0 : QuantifyRegionsImpl) (chr : String)
    (refstart refend : Int) : AnnotateResult :=
  annotateCore
    (if impl0.current_chr = none ∨ impl0.current_chr ≠ some chr
     then { impl0 with current_pos := -1 } else impl0) chr refstart refend

/-- Whether an annotate call hit the fatal ordering error. -/
def AnnotateResult.isFatal : AnnotateResult → Bool
  | AnnotateResult.ok _ _ => false
  | AnnotateResult.fatal _ => true

/-- State extraction (fresh engine on the fatal branch). -/
def AnnotateResult.implOf : AnnotateResult → QuantifyRegionsImpl
  | AnnotateResult.ok i _ => i
  | AnnotateResult.fatal _ => initImpl

/-- Tag extraction. -/
def AnnotateResult.tagOf : AnnotateResult → Option String
  | AnnotateResult.ok _ t => t
  | AnnotateResult.fatal _ => none

/-- Total size of the intervals stored under one label id in one buffer. -/
def bufSum (b : IntervalBuffer) (id : Nat) : Nat :=
  ((b.ivs.filter (fun iv => iv.label = id)).map ivlen).sum

/-- Total size of the intervals stored under one label id over all
chromosomes: the sum of stop - start + 1 over every inserted interval. -/
def ibSum (m : List (String × IntervalBuffer)) (id : Nat) : Nat :=
  (m.map (fun p => bufSum p.2 id)).sum

/-- The chromosome's buffer, or an empty one (for concrete statements). -/
def chrBuf (impl : QuantifyRegionsImpl) (chr : String) : IntervalBuffer :=
  (alook chr impl.ib).getD ⟨[]⟩

/-- The size-accumulator invariant tying getRegionSize to the inserted
intervals: every id's accumulated size is the total length of the
intervals stored under that id. -/
def SizesInv (impl : QuantifyRegionsImpl) : Prop :=
  ∀ id, sizesLookup impl.region_sizes id = ibSum impl.ib id

/-- The label names a single region-spec token can establish in the
session label map: the token parses, and the name is its base label or a
compound (base, underscore, suffix) of that base label. -/
def estabBy (f name : String) : Prop :=
  ∃ l fn fx, parseToken f = some (l, fn, fx) ∧
    (name = l ∨ ∃ s, name = l ++ ("_") ++ s)

/-- Interval-store extension: every chromosome's stored interval list of
the first store is a prefix of the one in the second store (an absent
chromosome counts as an empty buffer). -/
def ibExtends (m1 m2 : List (String × IntervalBuffer)) : Prop :=
  ∀ chr : String, ∃ ext : List Interval,
    ((alook chr m2).getD ⟨[]⟩).ivs = ((alook chr m1).getD ⟨[]⟩).ivs ++ ext

/- Concrete worlds used by witnesses and counterexamples. -/

/-- A one-file world: f.bed holds one row with a 4th column. -/
def fsA : Filesystem :=
  fun fn => if fn = ("f.bed") then some [("chr1\t0\t10\tfoo")] else none

/-- Engine after loading fsA once under label A. -/
def implA : QuantifyRegionsImpl := (load initImpl fsA [("A:f.bed")] false).implOf

/-- Engine after loading the same file twice under label A. -/
def implA2 : QuantifyRegionsImpl :=
  (load initImpl fsA [("A:f.bed"), ("A:f.bed")] false).implOf

/-- A world whose only file is named CONF.bed and has a 4th column. -/
def fsConfBase : Filesystem :=
  fun fn => if fn = ("CONF.bed") then some [("chr1\t0\t10\tfoo")] else none

/-- Engine after loading CONF.bed by bare path (label from the base name). -/
def implConfBase : QuantifyRegionsImpl :=
  (load initImpl fsConfBase [("CONF.bed")] false).implOf

/-- A world for an explicit CONF token: g.bed has a 4th column. -/
def fsConfTok : Filesystem :=
  fun fn => if fn = ("g.bed") then some [("chr1\t0\t10\tfoo")] else none

/-- The token-level step of loading CONF:g.bed on a fresh engine. -/
def confTokStep : LoadStep := processToken fsConfTok false initImpl [] ("CONF:g.bed")

/-- A world with a plain three-column file. -/
def fsEmptyLbl : Filesystem :=
  fun fn => if fn = ("f.bed") then some [("chr1\t0\t10")] else none

/-- Engine after loading that file under the empty label (token =:f.bed). -/
def implEmptyLbl : QuantifyRegionsImpl :=
  (load initImpl fsEmptyLbl [("=:f.bed")] false).implOf

/-- A world with one long confident region on chr1. -/
def fsBig : Filesystem :=
  fun fn => if fn = ("f.bed") then some [("chr1\t0\t1000")] else none

/-- Engine after loading CONF:f.bed from fsBig. -/
def implConf : QuantifyRegionsImpl := (load initImpl fsBig [("CONF:f.bed")] false).implOf

/-- Engine after annotating a record at position 100 on chr1. -/
def impl100 : QuantifyRegionsImpl := (annotate implConf ("chr1") 100 100).implOf

/-- Result of then annotating a record at position 50 on the same chr1. -/
def res50 : AnnotateResult := annotate impl100 ("chr1") 50 50

/-- Engine after the out-of-order second call. -/
def impl50 : QuantifyRegionsImpl := res50.implOf

/-- A world with one empty bed file. -/
def fsEmptyBed : Filesystem := fun fn => if fn = ("empty.bed") then some [] else none

/-- Engine after loading the empty bed file under label E. -/
def implE : QuantifyRegionsImpl := (load initImpl fsEmptyBed [("E:empty.bed")] false).implOf

/-- A world for the second load call of the relabelling scenario. -/
def fsB : Filesystem :=
  fun fn => if fn = ("g.bed") then some [("chr1\t0\t5")] else none

/-- Engine after a second load call (label B) on top of implA. -/
def implB2 : QuantifyRegionsImpl := (load implA fsB [("B:g.bed")] false).implOf

end Quantify

namespace Quantify

/-- Lookup ignores a right extension when the key is already bound. -/
theorem alook_append_some {κ β : Type} [DecidableEq κ] {k : κ} {m : List (κ × β)} {v : β}
    (ext : List (κ × β)) (h : alook k m = some v) : alook k (m ++ ext) = some v := by
  induction m with
  | nil => simp [alook] at h
  | cons p rest ih =>
    cases p with
    | mk k' w =>
      by_cases hk : k = k'
      · simp only [alook, List.cons_append, if_pos hk] at h ⊢
        exact h
      · simp only [alook, List.cons_append, if_neg hk] at h ⊢
        exact ih h

/-- Lookup of an unbound key falls through to the right extension. -/
theorem alook_append_none {κ β : Type} [DecidableEq κ] {k : κ} {m : List (κ × β)}
    (ext : List (κ × β)) (h : alook k m = none) : alook k (m ++ ext) = alook k ext := by
  induction m with
  | nil => simp
  | cons p rest ih =>
    cases p with
    | mk k' w =>
      by_cases hk : k = k'
      · simp only [alook, if_pos hk] at h
        exact absurd h (by simp)
      · simp only [alook, List.cons_append, if_neg hk] at h ⊢
        exact ih h

/-- Case split for lookups in an appended map. -/
theorem alook_append_split {κ β : Type} [DecidableEq κ] {k : κ} {m ext : List (κ × β)} {v : β}
    (h : alook k (m ++ ext) = some v) :
    alook k m = some v ∨ (alook k m = none ∧ alook k ext = some v) := by
  cases hm : alook k m with
  | none => exact Or.inr ⟨rfl, by rwa [alook_append_none ext hm] at h⟩
  | some w =>
    rw [alook_append_some ext hm] at h
    exact Or.inl h

/-- Unfolding lemma for lookup at a cons cell. -/
theorem alook_cons {κ β : Type} [DecidableEq κ] (k k' : κ) (v : β) (rest : List (κ × β)) :
    alook k ((k', v) :: rest) = if k = k' then some v else alook k rest := rfl

/-- Effect of the additive branch of the size update on lookups. -/
theorem alook_bumpAll (m : List (Nat × Nat)) (id sz id' : Nat) :
    alook id' (bumpAll m id sz) =
      (alook id' m).map (fun v => if id' = id then v + sz else v) := by
  induction m with
  | nil => simp [alook, bumpAll]
  | cons p rest ih =>
    cases p with
    | mk k v =>
      unfold bumpAll
      by_cases hk : k = id
      · rw [if_pos (show (k, v).1 = id from hk)]
        by_cases h' : id' = k
        · rw [alook_cons, alook_cons, if_pos h', if_pos h']
          simp [if_pos (h'.trans hk)]
        · rw [alook_cons, alook_cons, if_neg h', if_neg h']
          exact ih
      · rw [if_neg (show ¬ (k, v).1 = id from hk)]
        by_cases h' : id' = k
        · rw [alook_cons, alook_cons, if_pos h', if_pos h']
          simp [if_neg (show ¬ id' = id from fun hh => hk (h'.symm.trans hh))]
        · rw [alook_cons, alook_cons, if_neg h', if_neg h']
          exact ih

/-- The accumulator update adds the size exactly at the bumped id. -/
theorem sizesLookup_bumpSize (m : List (Nat × Nat)) (id sz id') :
    sizesLookup (bumpSize m id sz) id' =
      sizesLookup m id' + (if id' = id then sz else 0) := by
  unfold bumpSize
  cases h : alook id m with
  | none =>
    unfold sizesLookup
    cases h' : alook id' m with
    | none =>
      rw [alook_append_none _ h']
      by_cases hid : id' = id
      · subst hid
        simp [alook]
      · simp [alook, hid]
    | some v =>
      rw [alook_append_some _ h']
      by_cases hid : id' = id
      · subst hid
        rw [h'] at h
        cases h
      · simp [hid]
  | some w =>
    unfold sizesLookup
    rw [alook_bumpAll]
    cases h' : alook id' m with
    | none =>
      by_cases hid : id' = id
      · subst hid
        rw [h'] at h
        cases h
      · simp [hid]
    | some v =>
      by_cases hid : id' = id
      · simp [hid]
      · simp [hid]

/-- Summing over an appended buffer list. -/
theorem ibSum_append (a b : List (String × IntervalBuffer)) (id : Nat) :
    ibSum (a ++ b) id = ibSum a id + ibSum b id := by
  unfold ibSum
  rw [List.map_append, List.sum_append]

/-- Emplacing an empty chromosome buffer does not change any total. -/
theorem ibSum_ensure (m : List (String × IntervalBuffer)) (chr : String) (id : Nat) :
    ibSum (ibEnsureChr m chr) id = ibSum m id := by
  unfold ibEnsureChr
  split
  · rfl
  · rw [ibSum_append]
    simp [ibSum, bufSum]

/-- The emplaced chromosome is present afterwards. -/
theorem alook_ensure_self (m : List (String × IntervalBuffer)) (chr : String) :
    (alook chr (ibEnsureChr m chr)).isSome := by
  unfold ibEnsureChr
  cases hm : alook chr m with
  | some v =>
    rw [if_pos (show ((some v : Option IntervalBuffer)).isSome = true from rfl), hm]
    rfl
  | none =>
    rw [if_neg (show ¬ ((none : Option IntervalBuffer)).isSome = true from by simp),
        alook_append_none _ hm, alook_cons, if_pos rfl]
    rfl

/-- Lookup through an in-place update of one entry. -/
theorem alook_updateFirst (m : List (String × IntervalBuffer)) (chr : String)
    (f : IntervalBuffer → IntervalBuffer) (c' : String) :
    alook c' (updateFirst m chr f) =
      if c' = chr then (alook chr m).map f else alook c' m := by
  induction m with
  | nil => simp [updateFirst, alook]
  | cons p rest ih =>
    cases p with
    | mk k b =>
      unfold updateFirst
      by_cases hk : k = chr
      · rw [if_pos (show (k, b).1 = chr from hk), alook_cons]
        by_cases hc : c' = chr
        · rw [if_pos hc, if_pos (hc.trans hk.symm), alook_cons, if_pos hk.symm]
          rfl
        · rw [if_neg hc, if_neg (show ¬ c' = k from fun hh => hc (hh.trans hk)),
              alook_cons, if_neg (show ¬ c' = k from fun hh => hc (hh.trans hk))]
      · rw [if_neg (show ¬ (k, b).1 = chr from hk), alook_cons]
        by_cases hc : c' = k
        · rw [if_pos hc, if_neg (show ¬ c' = chr from fun hh => hk (hc.symm.trans hh)),
              alook_cons, if_pos hc]
        · rw [if_neg hc, ih,
              show alook chr ((k, b) :: rest) = alook chr rest from by
                rw [alook_cons, if_neg (show ¬ chr = k from fun hh => hk hh.symm)],
              show alook c' ((k, b) :: rest) = alook c' rest from by
                rw [alook_cons, if_neg hc]]

/-- Adding an interval to a buffer adds its length to the matching total. -/
theorem bufSum_addInterval (b : IntervalBuffer) (s e : Int) (lbl id : Nat) :
    bufSum (b.addInterval s e lbl) id =
      bufSum b id + (if id = lbl then (e - s + 1).toNat else 0) := by
  unfold bufSum IntervalBuffer.addInterval
  simp only [List.filter_append, List.map_append, List.sum_append]
  by_cases h : id = lbl
  · subst h
    simp [ivlen]
  · rw [show (List.filter (fun iv => decide (iv.label = id)) [(⟨s, e, lbl⟩ : Interval)]) = [] by
        simp
        exact fun hc => h hc.symm]
    simp [if_neg h]

/-- Separating one chromosome entry out of the grand total. -/
theorem ibSum_cons (k : String) (b : IntervalBuffer)
    (rest : List (String × IntervalBuffer)) (id : Nat) :
    ibSum ((k, b) :: rest) id = bufSum b id + ibSum rest id := by
  unfold ibSum
  simp

/-- Inserting one interval changes exactly the matching total, and only
when the chromosome is present. -/
theorem ibSum_addInterval (m : List (String × IntervalBuffer)) (chr : String)
    (s e : Int) (lbl id : Nat) :
    ibSum (ibAddInterval m chr s e lbl) id =
      ibSum m id +
        (if (alook chr m).isSome ∧ id = lbl then (e - s + 1).toNat else 0) := by
  unfold ibAddInterval
  induction m with
  | nil => simp [updateFirst, ibSum, alook]
  | cons p rest ih =>
    cases p with
    | mk k b =>
      unfold updateFirst
      by_cases hk : k = chr
      · rw [if_pos (show (k, b).1 = chr from hk), ibSum_cons, ibSum_cons,
            bufSum_addInterval, alook_cons, if_pos hk.symm]
        simp only [Option.isSome_some, true_and]
        by_cases hid : id = lbl
        · rw [if_pos hid]
          omega
        · rw [if_neg hid]
          omega
      · rw [if_neg (show ¬ (k, b).1 = chr from hk), ibSum_cons, ibSum_cons,
            alook_cons, if_neg (show ¬ chr = k from fun hh => hk hh.symm), ih]
        omega

end Quantify

namespace Quantify

/-- Equation of processLine on ignored short lines. -/
theorem processLine_short (c fl : Bool) (lb : String) (lid : Nat)
    (st : QuantifyRegionsImpl × LabelMap) (line : String)
    (h : lineView line = LineStep.short) : processLine c fl lb lid st line = st := by
  unfold processLine
  rw [h]

/-- Equation of processLine on skipped lines (buffer emplaced, rest skipped). -/
theorem processLine_bad (c fl : Bool) (lb : String) (lid : Nat)
    (st : QuantifyRegionsImpl × LabelMap) (line chrRaw : String)
    (h : lineView line = LineStep.bad chrRaw) :
    processLine c fl lb lid st line =
      ({ st.1 with ib := ibEnsureChr st.1.ib (if c then fixchrName chrRaw else chrRaw) }, st.2) := by
  unfold processLine
  rw [h]

/-- Equation of processLine on well-formed lines. -/
theorem processLine_good (c fl : Bool) (lb : String) (lid : Nat)
    (st : QuantifyRegionsImpl × LabelMap) (line chrRaw : String)
    (start stop : Int) (sub : Option String)
    (h : lineView line = LineStep.good chrRaw start stop sub) :
    processLine c fl lb lid st line =
      (let chr := if c then fixchrName chrRaw else chrRaw
       let impl := { st.1 with ib := ibEnsureChr st.1.ib chr }
       let r :=
         match sub with
         | some s4 =>
             if fl = false then resolveLabel impl.names st.2 (lb ++ ("_") ++ s4)
             else (lid, impl.names, st.2)
         | none => (lid, impl.names, st.2)
       (insertStep { impl with names := r.2.1 } chr start stop r.1 lid, r.2.2)) := by
  unfold processLine
  rw [h]

/-- The two-sided credit of one line adds the interval length at the
per-line id and, when distinct, at the base id of the accumulator. -/
theorem insertStep_sizes (impl : QuantifyRegionsImpl) (chr : String) (s e : Int)
    (this_id lid id : Nat) :
    sizesLookup (insertStep impl chr s e this_id lid).region_sizes id =
      sizesLookup impl.region_sizes id +
        ((if id = this_id then (e - s + 1).toNat else 0) +
         (if this_id ≠ lid ∧ id = lid then (e - s + 1).toNat else 0)) := by
  unfold insertStep
  by_cases hne : this_id ≠ lid
  · rw [if_pos hne]
    show sizesLookup
        (bumpSize (bumpSize impl.region_sizes this_id (ivlen ⟨s, e, this_id⟩)) lid
          (ivlen ⟨s, e, lid⟩)) id = _
    rw [sizesLookup_bumpSize, sizesLookup_bumpSize]
    simp only [ivlen]
    split_ifs <;> omega
  · rw [if_neg hne]
    show sizesLookup (bumpSize impl.region_sizes this_id (ivlen ⟨s, e, this_id⟩)) id = _
    rw [sizesLookup_bumpSize]
    simp only [ivlen]
    have hno : ¬ (this_id ≠ lid ∧ id = lid) := fun hc => hne hc.1
    rw [if_neg hno]
    split_ifs <;> omega

/-- The same two-sided effect on the stored interval totals, provided the
chromosome entry exists. -/
theorem insertStep_ibSum (impl : QuantifyRegionsImpl) (chr : String) (s e : Int)
    (this_id lid id : Nat) (h : (alook chr impl.ib).isSome) :
    ibSum (insertStep impl chr s e this_id lid).ib id =
      ibSum impl.ib id +
        ((if id = this_id then (e - s + 1).toNat else 0) +
         (if this_id ≠ lid ∧ id = lid then (e - s + 1).toNat else 0)) := by
  unfold insertStep
  by_cases hne : this_id ≠ lid
  · rw [if_pos hne]
    show ibSum (ibAddInterval (ibAddInterval impl.ib chr s e this_id) chr s e lid) id = _
    have h2 : (alook chr (ibAddInterval impl.ib chr s e this_id)).isSome := by
      unfold ibAddInterval
      rw [alook_updateFirst, if_pos rfl]
      cases halk : alook chr impl.ib with
      | none => rw [halk] at h; simp at h
      | some b => simp
    rw [ibSum_addInterval, ibSum_addInterval]
    simp only [h, h2, true_and]
    split_ifs <;> omega
  · rw [if_neg hne]
    show ibSum (ibAddInterval impl.ib chr s e this_id) id = _
    rw [ibSum_addInterval]
    simp only [h, true_and]
    have hno : ¬ (this_id ≠ lid ∧ id = lid) := fun hc => hne hc.1
    rw [if_neg hno]
    split_ifs <;> omega

/-- The per-line insert preserves the size invariant. -/
theorem sizesInv_insertStep (impl : QuantifyRegionsImpl) (chr : String) (s e : Int)
    (this_id lid : Nat) (hinv : SizesInv impl) (h : (alook chr impl.ib).isSome) :
    SizesInv (insertStep impl chr s e this_id lid) := by
  intro id
  rw [insertStep_sizes, insertStep_ibSum impl chr s e this_id lid id h, hinv id]

/-- One line preserves the size invariant. -/
theorem sizesInv_processLine (c fl : Bool) (lb : String) (lid : Nat)
    (st : QuantifyRegionsImpl × LabelMap) (line : String) (hinv : SizesInv st.1) :
    SizesInv (processLine c fl lb lid st line).1 := by
  rcases hlv : lineView line with _ | chrRaw | ⟨chrRaw, start, stop, sub⟩
  · rw [processLine_short c fl lb lid st line hlv]
    exact hinv
  · rw [processLine_bad c fl lb lid st line chrRaw hlv]
    intro id
    show sizesLookup st.1.region_sizes id = ibSum (ibEnsureChr st.1.ib _) id
    rw [ibSum_ensure]
    exact hinv id
  · rw [processLine_good c fl lb lid st line chrRaw start stop sub hlv]
    refine sizesInv_insertStep _ _ _ _ _ _ ?_ ?_
    · intro id
      show sizesLookup st.1.region_sizes id = ibSum (ibEnsureChr st.1.ib _) id
      rw [ibSum_ensure]
      exact hinv id
    · exact alook_ensure_self _ _

/-- A whole file preserves the size invariant. -/
theorem sizesInv_processLines (c fl : Bool) (lb : String) (lid : Nat)
    (lines : List String) :
    ∀ st : QuantifyRegionsImpl × LabelMap, SizesInv st.1 →
      SizesInv (processLines c fl lb lid st lines).1 := by
  induction lines with
  | nil => intro st h; exact h
  | cons line rest ih =>
    intro st h
    show SizesInv (processLines c fl lb lid (processLine c fl lb lid st line) rest).1
    exact ih _ (sizesInv_processLine c fl lb lid st line h)

/-- Equation of processToken when the token parses and the file opens. -/
theorem processToken_eq_ok (fs : Filesystem) (c : Bool) (impl : QuantifyRegionsImpl)
    (lm : LabelMap) (f label filename : String) (fixed : Bool) (lines : List String)
    (hp : parseToken f = some (label, filename, fixed)) (hfs : fs filename = some lines) :
    processToken fs c impl lm f =
      LoadStep.ok
        (processLines c fixed label (resolveLabel impl.names lm label).1
          ({ impl with names := (resolveLabel impl.names lm label).2.1 },
            (resolveLabel impl.names lm label).2.2) lines).1
        (processLines c fixed label (resolveLabel impl.names lm label).1
          ({ impl with names := (resolveLabel impl.names lm label).2.1 },
            (resolveLabel impl.names lm label).2.2) lines).2 := by
  unfold processToken
  simp only [hp, hfs]

/-- One token preserves the size invariant. -/
theorem sizesInv_processToken (fs : Filesystem) (c : Bool) (impl : QuantifyRegionsImpl)
    (lm : LabelMap) (f : String) (impl' : QuantifyRegionsImpl) (lm' : LabelMap)
    (h : processToken fs c impl lm f = LoadStep.ok impl' lm') (hinv : SizesInv impl) :
    SizesInv impl' := by
  unfold processToken at h
  cases hp : parseToken f with
  | none =>
    simp only [hp] at h
    exact LoadStep.noConfusion h
  | some t =>
    obtain ⟨label, filename, fixed⟩ := t
    simp only [hp] at h
    cases hfs : fs filename with
    | none =>
      simp only [hfs] at h
      exact LoadStep.noConfusion h
    | some lines =>
      simp only [hfs] at h
      injection h with h1 h2
      rw [← h1]
      exact sizesInv_processLines c fixed label _ lines _ hinv

/-- A token list preserves the size invariant. -/
theorem sizesInv_loadTokens (fs : Filesystem) (c : Bool) (toks : List String) :
    ∀ impl lm impl' lm', loadTokens fs c impl lm toks = LoadStep.ok impl' lm' →
      SizesInv impl → SizesInv impl' := by
  induction toks with
  | nil =>
    intro impl lm impl' lm' h hinv
    unfold loadTokens at h
    injection h with h1 h2
    rw [← h1]
    exact hinv
  | cons f rest ih =>
    intro impl lm impl' lm' h hinv
    unfold loadTokens at h
    cases hstep : processToken fs c impl lm f with
    | ok ia la =>
      rw [hstep] at h
      exact ih ia la impl' lm' h (sizesInv_processToken fs c impl lm f ia la hstep hinv)
    | fatal m =>
      rw [hstep] at h
      exact LoadStep.noConfusion h
    | crash =>
      rw [hstep] at h
      exact LoadStep.noConfusion h

/-- A whole load call preserves the size invariant. -/
theorem sizesInv_load (impl : QuantifyRegionsImpl) (fs : Filesystem)
    (rn : List String) (fc : Bool) (impl' : QuantifyRegionsImpl)
    (h : load impl fs rn fc = LoadResult.ok impl') (hinv : SizesInv impl) :
    SizesInv impl' := by
  unfold load at h
  cases hlt : loadTokens fs fc impl [] rn with
  | ok ia la =>
    rw [hlt] at h
    injection h with h1
    rw [← h1]
    exact fun id => sizesInv_loadTokens fs fc rn impl [] ia la hlt hinv id
  | fatal m =>
    rw [hlt] at h
    exact LoadResult.noConfusion h
  | crash =>
    rw [hlt] at h
    exact LoadResult.noConfusion h

/-- A fresh engine satisfies the size invariant. -/
theorem sizesInv_init : SizesInv initImpl := fun _ => rfl

/-- Bridging getRegionSize to the total accumulator lookup. -/
theorem getRegionSize_eq (impl : QuantifyRegionsImpl) (name : String) :
    getRegionSize impl name =
      match alook name impl.label_map with
      | none => 0
      | some id => sizesLookup impl.region_sizes id := by
  unfold getRegionSize sizesLookup
  cases alook name impl.label_map with
  | none => rfl
  | some id =>
    show (match alook id impl.region_sizes with | none => 0 | some s => s) =
      (alook id impl.region_sizes).getD 0
    cases alook id impl.region_sizes with
    | none => rfl
    | some s => rfl

end Quantify

namespace Quantify

/-- C3.  After a load on a fresh engine, for every label known to the
engine, getRegionSize equals the sum of (stop - start + 1) over every
interval stored under that label's id — compound-label intervals are
inserted (and hence counted) under both the compound id and the base id —
and for any name that is not a known label, getRegionSize returns 0. -/
theorem c3_region_size_correct (fs : Filesystem) (rnames : List String) (fixchr : Bool)
    (impl' : QuantifyRegionsImpl) (name : String)
    (h : load initImpl fs rnames fixchr = LoadResult.ok impl') :
    getRegionSize impl' name =
      match alook name impl'.label_map with
      | none => 0
      | some id => ibSum impl'.ib id := by
  have hinv := sizesInv_load initImpl fs rnames fixchr impl' h sizesInv_init
  rw [getRegionSize_eq]
  cases alook name impl'.label_map with
  | none => rfl
  | some id => exact hinv id

/-- Witness for C3 at the concrete compound-label load of fsA. -/
theorem c3_witness :
    getRegionSize implA ("A") =
      match alook ("A") implA.label_map with
      | none => 0
      | some id => ibSum implA.ib id :=
  c3_region_size_correct fsA [("A:f.bed")] false implA ("A") rfl

end Quantify

namespace Quantify

/-- The credit-and-insert block never touches the streaming cursor. -/
theorem insertStep_current_chr (impl : QuantifyRegionsImpl) (chr : String)
    (s e : Int) (this_id lid : Nat) :
    (insertStep impl chr s e this_id lid).current_chr = impl.current_chr := by
  unfold insertStep
  split <;> rfl

/-- One line never touches the streaming cursor. -/
theorem processLine_current_chr (c fl : Bool) (lb : String) (lid : Nat)
    (st : QuantifyRegionsImpl × LabelMap) (line : String) :
    (processLine c fl lb lid st line).1.current_chr = st.1.current_chr := by
  rcases hlv : lineView line with _ | chrRaw | ⟨chrRaw, start, stop, sub⟩
  · rw [processLine_short c fl lb lid st line hlv]
  · rw [processLine_bad c fl lb lid st line chrRaw hlv]
  · rw [processLine_good c fl lb lid st line chrRaw start stop sub hlv]
    exact insertStep_current_chr _ _ _ _ _ _

/-- A file never touches the streaming cursor. -/
theorem processLines_current_chr (c fl : Bool) (lb : String) (lid : Nat)
    (lines : List String) :
    ∀ st : QuantifyRegionsImpl × LabelMap,
      (processLines c fl lb lid st lines).1.current_chr = st.1.current_chr := by
  induction lines with
  | nil => intro st; rfl
  | cons line rest ih =>
    intro st
    show (processLines c fl lb lid (processLine c fl lb lid st line) rest).1.current_chr = _
    rw [ih, processLine_current_chr]

/-- One token never touches the streaming cursor. -/
theorem processToken_current_chr (fs : Filesystem) (c : Bool)
    (impl : QuantifyRegionsImpl) (lm : LabelMap) (f : String)
    (impl' : QuantifyRegionsImpl) (lm' : LabelMap)
    (h : processToken fs c impl lm f = LoadStep.ok impl' lm') :
    impl'.current_chr = impl.current_chr := by
  unfold processToken at h
  cases hp : parseToken f with
  | none =>
    simp only [hp] at h
    exact LoadStep.noConfusion h
  | some t =>
    obtain ⟨label, filename, fixed⟩ := t
    simp only [hp] at h
    cases hfs : fs filename with
    | none =>
      simp only [hfs] at h
      exact LoadStep.noConfusion h
    | some lines =>
      simp only [hfs] at h
      injection h with h1 h2
      rw [← h1, processLines_current_chr]

/-- A token list never touches the streaming cursor. -/
theorem loadTokens_current_chr (fs : Filesystem) (c : Bool) (toks : List String) :
    ∀ impl lm impl' lm', loadTokens fs c impl lm toks = LoadStep.ok impl' lm' →
      impl'.current_chr = impl.current_chr := by
  induction toks with
  | nil =>
    intro impl lm impl' lm' h
    unfold loadTokens at h
    injection h with h1 h2
    rw [← h1]
  | cons f rest ih =>
    intro impl lm impl' lm' h
    unfold loadTokens at h
    cases hstep : processToken fs c impl lm f with
    | ok ia la =>
      rw [hstep] at h
      rw [ih ia la impl' lm' h, processToken_current_chr fs c impl lm f ia la hstep]
    | fatal m =>
      rw [hstep] at h
      exact LoadStep.noConfusion h
    | crash =>
      rw [hstep] at h
      exact LoadStep.noConfusion h

/-- Load never touches the streaming cursor. -/
theorem load_current_chr (impl : QuantifyRegionsImpl) (fs : Filesystem)
    (rn : List String) (fc : Bool) (impl' : QuantifyRegionsImpl)
    (h : load impl fs rn fc = LoadResult.ok impl') :
    impl'.current_chr = impl.current_chr := by
  unfold load at h
  cases hlt : loadTokens fs fc impl [] rn with
  | ok ia la =>
    rw [hlt] at h
    injection h with h1
    rw [← h1]
    exact loadTokens_current_chr fs fc rn impl [] ia la hlt
  | fatal m =>
    rw [hlt] at h
    exact LoadResult.noConfusion h
  | crash =>
    rw [hlt] at h
    exact LoadResult.noConfusion h

/-- The core never writes the current-chromosome member. -/
theorem annotateCore_current_chr (impl : QuantifyRegionsImpl) (chr : String) (s e : Int)
    (impl' : QuantifyRegionsImpl) (t : Option String)
    (h : annotateCore impl chr s e = AnnotateResult.ok impl' t) :
    impl'.current_chr = impl.current_chr := by
  unfold annotateCore at h
  cases halk : alook chr impl.ib with
  | none =>
    simp only [halk] at h
    injection h with h1 h2
    rw [← h1]
  | some b =>
    simp only [halk] at h
    by_cases hlt : s < impl.current_pos
    · rw [if_pos hlt] at h
      exact AnnotateResult.noConfusion h
    · rw [if_neg hlt] at h
      injection h with h1 h2
      rw [← h1]
      by_cases hgt : (1 : Int) < s
      · rw [if_pos hgt]
      · rw [if_neg hgt]

/-- A successful annotate call never writes the current-chromosome member
(faithful to the source, where no assignment to it exists). -/
theorem annotate_current_chr (impl : QuantifyRegionsImpl) (chr : String) (s e : Int)
    (impl' : QuantifyRegionsImpl) (t : Option String)
    (h : annotate impl chr s e = AnnotateResult.ok impl' t) :
    impl'.current_chr = impl.current_chr := by
  unfold annotate at h
  by_cases hr : impl.current_chr = none ∨ impl.current_chr ≠ some chr
  · rw [if_pos hr] at h
    exact annotateCore_current_chr { impl with current_pos := -1 } chr s e impl' t h
  · rw [if_neg hr] at h
    exact annotateCore_current_chr impl chr s e impl' t h

/-- The core cannot raise the ordering error when the watermark is at or
below the record position. -/
theorem annotateCore_not_fatal (impl : QuantifyRegionsImpl) (chr : String) (s e : Int)
    (hpos : impl.current_pos ≤ s) : (annotateCore impl chr s e).isFatal = false := by
  unfold annotateCore
  cases halk : alook chr impl.ib with
  | none =>
    simp only [halk]
    rfl
  | some b =>
    simp only [halk]
    rw [if_neg (show ¬ s < impl.current_pos from by omega)]
    rfl

/-- With an unset cursor the ordering check compares against the freshly
reset watermark -1, so it cannot fire for any position of at least -1. -/
theorem annotate_not_fatal (impl : QuantifyRegionsImpl) (chr : String) (s e : Int)
    (hcc : impl.current_chr = none) (hs : (-1 : Int) ≤ s) :
    (annotate impl chr s e).isFatal = false := by
  unfold annotate
  rw [if_pos (Or.inl hcc)]
  exact annotateCore_not_fatal _ chr s e
    (show ({ impl with current_pos := -1 } : QuantifyRegionsImpl).current_pos ≤ s from by
      show (-1 : Int) ≤ s
      omega)

end Quantify

namespace Quantify

/-- C1 (code-bug evidence).  The current-chromosome member is none on
construction and no operation ever writes it, so the reset branch fires on
every annotate call, the watermark is -1 at the ordering check, and the
fatal "Variants out of order" error is dead code for every record position
of at least -1 (BCF positions are): feeding position 100 then 50 on one
chromosome does NOT raise the fatal ordering error the claim requires. -/
theorem c1_ordering_error_dead :
    initImpl.current_chr = none ∧
    (∀ impl fs rn fc impl', load impl fs rn fc = LoadResult.ok impl' →
        impl'.current_chr = impl.current_chr) ∧
    (∀ impl chr s e impl' t, annotate impl chr s e = AnnotateResult.ok impl' t →
        impl'.current_chr = impl.current_chr) ∧
    (∀ impl chr s e, impl.current_chr = none → (-1 : Int) ≤ s →
        (annotate impl chr s e).isFatal = false) :=
  ⟨rfl,
   fun impl fs rn fc impl' h => load_current_chr impl fs rn fc impl' h,
   fun impl chr s e impl' t h => annotate_current_chr impl chr s e impl' t h,
   fun impl chr s e hcc hs => annotate_not_fatal impl chr s e hcc hs⟩

/-- Witness for C1 at the concrete out-of-order scan: after a record at
position 100 on chr1, the record at position 50 on chr1 is not fatal. -/
theorem c1_witness :
    impl100.current_chr = none ∧
    impl100.current_pos = 99 ∧
    (annotate impl100 ("chr1") 50 50).isFatal = false :=
  ⟨by decide, by decide,
   c1_ordering_error_dead.2.2.2 impl100 ("chr1") 50 50 (by decide) (by decide)⟩

/-- C2 (code-bug evidence).  On the same chromosome chr1, the watermark is
99 after annotating position 100 and 49 after then annotating position 50:
the cursor was reset although the chromosome did not change, and the
watermark moved backward while processing a single chromosome. -/
theorem c2_watermark_not_monotonic :
    res50.isFatal = false ∧
    impl100.current_pos = 99 ∧
    impl50.current_pos = 49 := by
  decide

/-- C8 (code-bug evidence).  With a file that cannot be opened, load
reaches hts_getline with the unchecked NULL handle of the failed hts_open
(the crash marker) instead of raising a designed fatal load error. -/
theorem c8_unopenable_crash :
    load initImpl (fun _ => none) [("CONF:missing.bed")] false = LoadResult.crash := rfl

end Quantify

namespace Quantify

/-- Data of a string append is the appended data. -/
theorem strDataAppend (a b : String) : (a ++ b).data = a.data ++ b.data := rfl

/-- String append is associative. -/
theorem strAssoc (a b c : String) : a ++ b ++ c = a ++ (b ++ c) := by
  apply String.ext
  rw [strDataAppend, strDataAppend, strDataAppend, strDataAppend, List.append_assoc]

/-- A string containing a comma is not empty. -/
theorem strAppendCommaNe (acc r : String) : acc ++ (",") ++ r ≠ ("") := by
  intro hcon
  have h2 := congrArg String.data hcon
  rw [strDataAppend, strDataAppend, show ((",") : String).data = [','] from rfl] at h2
  simp at h2

/-- Nothing is below the empty character list in the lexicographic order. -/
theorem charListLt_nil_right (l : List Char) : charListLt l [] = false := by
  cases l <;> rfl

/-- Nothing is below the empty string in the string order. -/
theorem strLt_empty_false (s : String) : strLt s ("") = false :=
  charListLt_nil_right s.data

/-- Transitivity of the lexicographic order. -/
theorem charListLt_trans : ∀ a b c : List Char,
    charListLt a b = true → charListLt b c = true → charListLt a c = true := by
  intro a
  induction a with
  | nil =>
    intro b c hab hbc
    cases c with
    | nil =>
      rw [charListLt_nil_right] at hbc
      exact absurd hbc (by simp)
    | cons z zs => rfl
  | cons x xs ih =>
    intro b c hab hbc
    cases b with
    | nil =>
      rw [charListLt_nil_right] at hab
      exact absurd hab (by simp)
    | cons y ys =>
      cases c with
      | nil =>
        rw [charListLt_nil_right] at hbc
        exact absurd hbc (by simp)
      | cons z zs =>
        simp only [charListLt] at hab hbc ⊢
        by_cases h1 : x < y
        · by_cases h2 : y < z
          · rw [if_pos (lt_trans h1 h2)]
          · rw [if_neg h2] at hbc
            by_cases h3 : z < y
            · rw [if_pos h3] at hbc
              exact absurd hbc (by simp)
            · have hyz : y = z := le_antisymm (not_lt.mp h3) (not_lt.mp h2)
              subst hyz
              rw [if_pos h1]
        · rw [if_neg h1] at hab
          by_cases h1' : y < x
          · rw [if_pos h1'] at hab
            exact absurd hab (by simp)
          · rw [if_neg h1'] at hab
            have hxy : x = y := le_antisymm (not_lt.mp h1') (not_lt.mp h1)
            subst hxy
            by_cases h2 : x < z
            · rw [if_pos h2]
            · rw [if_neg h2] at hbc ⊢
              by_cases h3 : z < x
              · rw [if_pos h3] at hbc
                exact absurd hbc (by simp)
              · rw [if_neg h3] at hbc ⊢
                exact ih ys zs hab hbc

/-- Connexity: unordered distinct lists compare the other way. -/
theorem charListLt_conn : ∀ a b : List Char,
    charListLt a b = false → a ≠ b → charListLt b a = true := by
  intro a
  induction a with
  | nil =>
    intro b hab hne
    cases b with
    | nil => exact absurd rfl hne
    | cons y ys => exact absurd hab (by simp [charListLt])
  | cons x xs ih =>
    intro b hab hne
    cases b with
    | nil => rfl
    | cons y ys =>
      simp only [charListLt] at hab ⊢
      by_cases h1 : x < y
      · rw [if_pos h1] at hab
        exact absurd hab (by simp)
      · rw [if_neg h1] at hab
        by_cases h2 : y < x
        · rw [if_pos h2]
        · rw [if_neg h2] at hab
          have hxy : x = y := le_antisymm (not_lt.mp h2) (not_lt.mp h1)
          subst hxy
          rw [if_neg h1, if_neg h2]
          exact ih ys hab (fun he => hne (by rw [he]))

/-- Transitivity for strings. -/
theorem strLt_trans (a b c : String) (h1 : strLt a b = true) (h2 : strLt b c = true) :
    strLt a c = true :=
  charListLt_trans a.data b.data c.data h1 h2

/-- Connexity for strings. -/
theorem strLt_conn (a b : String) (h1 : strLt a b = false) (h2 : a ≠ b) :
    strLt b a = true :=
  charListLt_conn a.data b.data h1 (fun he => h2 (String.ext he))

/-- Joining a list headed by a non-empty string is non-empty. -/
theorem joinComma_ne_empty (x : String) (xs : List String) (hx : x ≠ ("")) :
    joinComma (x :: xs) ≠ ("") := by
  cases xs with
  | nil => simpa [joinComma] using hx
  | cons y ys =>
    show x ++ (",") ++ joinComma (y :: ys) ≠ ("")
    exact strAppendCommaNe x (joinComma (y :: ys))

/-- Membership after a set insertion. -/
theorem mem_setInsert (a x : String) (l : List String) :
    a ∈ setInsert x l ↔ a = x ∨ a ∈ l := by
  induction l with
  | nil => simp [setInsert]
  | cons y ys ih =>
    unfold setInsert
    by_cases h1 : strLt x y = true
    · rw [if_pos h1]
      simp [List.mem_cons]
    · rw [if_neg h1]
      by_cases h2 : x = y
      · rw [if_pos h2]
        subst h2
        constructor
        · intro hmem
          exact Or.inr hmem
        · rintro (rfl | hmem)
          · exact List.mem_cons_self _ _
          · exact hmem
      · rw [if_neg h2]
        simp only [List.mem_cons, ih]
        tauto

/-- Set insertion preserves strict sortedness. -/
theorem sorted_setInsert (x : String) (l : List String)
    (h : l.Sorted (fun a b => strLt a b = true)) :
    (setInsert x l).Sorted (fun a b => strLt a b = true) := by
  induction l with
  | nil => simp [setInsert]
  | cons y ys ih =>
    rw [List.sorted_cons] at h
    obtain ⟨hy, hys⟩ := h
    unfold setInsert
    by_cases h1 : strLt x y = true
    · rw [if_pos h1, List.sorted_cons]
      refine ⟨?_, ?_⟩
      · intro b hb
        rcases List.mem_cons.mp hb with rfl | hb'
        · exact h1
        · exact strLt_trans x y b h1 (hy b hb')
      · rw [List.sorted_cons]
        exact ⟨hy, hys⟩
    · rw [if_neg h1]
      by_cases h2 : x = y
      · rw [if_pos h2, List.sorted_cons]
        exact ⟨hy, hys⟩
      · rw [if_neg h2, List.sorted_cons]
        refine ⟨?_, ih hys⟩
        intro b hb
        rcases (mem_setInsert b x ys).mp hb with rfl | hb'
        · exact strLt_conn b y (by simpa using h1) h2
        · exact hy b hb'

/-- Folding insertions keeps sortedness and collects exactly the members. -/
theorem setOfList_go (l : List String) :
    ∀ acc : List String, acc.Sorted (fun a b => strLt a b = true) →
      (l.foldl (fun s x => setInsert x s) acc).Sorted (fun a b => strLt a b = true) ∧
      ∀ a, a ∈ l.foldl (fun s x => setInsert x s) acc ↔ a ∈ acc ∨ a ∈ l := by
  induction l with
  | nil =>
    intro acc hacc
    exact ⟨hacc, by simp⟩
  | cons x xs ih =>
    intro acc hacc
    have h1 := ih (setInsert x acc) (sorted_setInsert x acc hacc)
    refine ⟨h1.1, ?_⟩
    intro a
    show a ∈ xs.foldl (fun s x => setInsert x s) (setInsert x acc) ↔ _
    rw [h1.2 a, mem_setInsert]
    simp only [List.mem_cons]
    tauto

/-- The collected set is sorted strictly ascending (so duplicate free). -/
theorem setOfList_sorted (l : List String) :
    (setOfList l).Sorted (fun a b => strLt a b = true) :=
  (setOfList_go l [] (by simp)).1

/-- The collected set has exactly the members of the list. -/
theorem mem_setOfList (a : String) (l : List String) : a ∈ setOfList l ↔ a ∈ l := by
  have h := (setOfList_go l [] (by simp)).2 a
  simpa using h

/-- The query loop collects exactly the names of overlapping label ids. -/
theorem mem_collectMatching (b : IntervalBuffer) (rs re : Int) (names : List String) :
    ∀ i s, s ∈ collectMatching names b rs re i ↔
      ∃ j, j < names.length ∧ names.getD j ("") = s ∧
        b.hasOverlap rs re (i + j) = true := by
  induction names with
  | nil =>
    intro i s
    simp [collectMatching]
  | cons n rest ih =>
    intro i s
    unfold collectMatching
    by_cases ho : b.hasOverlap rs re i = true
    · rw [if_pos ho]
      simp only [List.mem_cons, ih (i + 1) s]
      constructor
      · rintro (rfl | ⟨j, hj, hget, hov⟩)
        · exact ⟨0, by simp, by simp, by simpa using ho⟩
        · refine ⟨j + 1, by simpa using Nat.succ_lt_succ hj, by simpa using hget, ?_⟩
          rw [show i + (j + 1) = i + 1 + j from by omega]
          exact hov
      · rintro ⟨j, hj, hget, hov⟩
        cases j with
        | zero =>
          left
          simpa using hget.symm
        | succ j' =>
          right
          refine ⟨j', by simp only [List.length_cons] at hj; omega, by simpa using hget, ?_⟩
          rw [show i + 1 + j' = i + (j' + 1) from by omega]
          exact hov
    · rw [if_neg ho]
      rw [ih (i + 1) s]
      constructor
      · rintro ⟨j, hj, hget, hov⟩
        refine ⟨j + 1, by simp only [List.length_cons]; omega, by simpa using hget, ?_⟩
        rw [show i + (j + 1) = i + 1 + j from by omega]
        exact hov
      · rintro ⟨j, hj, hget, hov⟩
        cases j with
        | zero =>
          rw [show i + 0 = i from by omega] at hov
          exact absurd hov ho
        | succ j' =>
          refine ⟨j', by simp only [List.length_cons] at hj; omega, by simpa using hget, ?_⟩
          rw [show i + 1 + j' = i + (j' + 1) from by omega]
          exact hov

/-- Unrolling the tag fold once the accumulator is non-empty. -/
theorem renderTag_go (rs : List String) :
    ∀ acc : String, acc ≠ ("") →
      rs.foldl (fun acc r => (if acc = "" then acc else acc ++ (",")) ++ r) acc =
        if rs = [] then acc else acc ++ (",") ++ joinComma rs := by
  induction rs with
  | nil =>
    intro acc hacc
    simp
  | cons r rest ih =>
    intro acc hacc
    show rest.foldl _ ((if acc = "" then acc else acc ++ (",")) ++ r) = _
    rw [if_neg hacc, ih (acc ++ (",") ++ r) (strAppendCommaNe acc r)]
    cases rest with
    | nil => simp [joinComma]
    | cons y ys =>
      rw [if_neg (by simp), if_neg (by simp)]
      show acc ++ (",") ++ r ++ (",") ++ joinComma (y :: ys) =
        acc ++ (",") ++ (r ++ (",") ++ joinComma (y :: ys))
      rw [strAssoc (acc ++ (",")) r ((",")), strAssoc (acc ++ (",")) (r ++ (",")) (joinComma (y :: ys)),
          strAssoc r (",") (joinComma (y :: ys))]

/-- A leading empty string contributes nothing to the tag. -/
theorem renderTag_cons_empty (rest : List String) :
    renderTag ((("") : String) :: rest) = renderTag rest := rfl

/-- With a non-empty head the tag fold is plain comma joining. -/
theorem renderTag_cons_ne (m : String) (rest : List String) (hm : m ≠ ("")) :
    renderTag (m :: rest) = joinComma (m :: rest) := by
  show rest.foldl _ ((if ("" : String) = "" then ("" : String) else "" ++ (",")) ++ m) = _
  rw [show ((if ("" : String) = "" then ("" : String) else "" ++ (",")) ++ m) = m from by simp]
  rw [renderTag_go rest m hm]
  cases rest with
  | nil => simp [joinComma]
  | cons y ys =>
    rw [if_neg (by simp)]
    rfl

/-- On a sorted set the rendered tag is the comma joining of the
non-empty names (an empty name can only sit at the head and vanishes). -/
theorem renderTag_sorted_eq (ms : List String)
    (hs : ms.Sorted (fun a b => strLt a b = true)) :
    renderTag ms = joinComma (ms.filter (fun s => s ≠ (""))) := by
  cases ms with
  | nil => rfl
  | cons m rest =>
    rw [List.sorted_cons] at hs
    obtain ⟨hm, hrest⟩ := hs
    by_cases hme : m = ("")
    · subst hme
      have hnone : ∀ x ∈ rest, ¬ x = ("") := by
        intro x hx hxe
        have hlt := hxe ▸ hm x hx
        rw [strLt_empty_false] at hlt
        exact Bool.noConfusion hlt
      rw [renderTag_cons_empty rest,
          show (((("") : String) :: rest).filter (fun s => s ≠ (""))) =
            rest.filter (fun s => s ≠ ("")) from by simp,
          List.filter_eq_self.mpr (fun x hx => by simpa using hnone x hx)]
      cases rest with
      | nil => rfl
      | cons y ys =>
        exact renderTag_cons_ne y ys (hnone y (List.mem_cons_self y ys))
    · have hnone : ∀ x ∈ m :: rest, ¬ x = ("") := by
        intro x hx hxe
        rcases List.mem_cons.mp hx with rfl | hx'
        · exact hme hxe
        · have hlt := hxe ▸ hm x hx'
          rw [strLt_empty_false] at hlt
          exact Bool.noConfusion hlt
      rw [List.filter_eq_self.mpr (fun x hx => by simpa using hnone x hx)]
      exact renderTag_cons_ne m rest hme

/-- On a sorted set the tag is empty exactly when no non-empty name matched. -/
theorem renderTag_empty_iff (ms : List String)
    (hs : ms.Sorted (fun a b => strLt a b = true)) :
    renderTag ms = ("") ↔ ms.filter (fun s => s ≠ ("")) = [] := by
  rw [renderTag_sorted_eq ms hs]
  constructor
  · intro h
    cases hf : ms.filter (fun s => s ≠ ("")) with
    | nil => rfl
    | cons x xs =>
      rw [hf] at h
      have hmem : x ∈ ms.filter (fun s => s ≠ ("")) := by
        rw [hf]
        exact List.mem_cons_self x xs
      have hx : x ≠ ("") := by simpa using List.of_mem_filter hmem
      exact absurd h (joinComma_ne_empty x xs hx)
  · intro h
    rw [h]
    rfl

end Quantify

namespace Quantify

/-- The tag attached by the core: for a present chromosome it is the
rendered sorted set of matching names, cleared when the string is empty. -/
theorem annotateCore_tag (impl : QuantifyRegionsImpl) (chr : String) (rs re : Int)
    (impl' : QuantifyRegionsImpl) (tag : Option String)
    (h : annotateCore impl chr rs re = AnnotateResult.ok impl' tag) :
    tag = (match alook chr impl.ib with
           | none => none
           | some b =>
             if renderTag (setOfList (collectMatching impl.names b rs re 0)) = ("")
             then none
             else some (renderTag (setOfList (collectMatching impl.names b rs re 0)))) := by
  unfold annotateCore at h
  cases halk : alook chr impl.ib with
  | none =>
    simp only [halk] at h ⊢
    injection h with h1 h2
    exact h2.symm
  | some b =>
    simp only [halk] at h ⊢
    by_cases hlt : rs < impl.current_pos
    · rw [if_pos hlt] at h
      exact AnnotateResult.noConfusion h
    · rw [if_neg hlt] at h
      injection h with h1 h2
      exact h2.symm

/-- C6 counterexample.  Engine loaded from the token =:f.bed carries the
empty-named label; a record overlapping its interval has a non-empty
matching set (the empty name matches) yet the Regions field is cleared,
against the claim that a non-empty matching set is always attached. -/
theorem c6_counterexample :
    hasRegions implEmptyLbl ("") = true ∧
    regionsNames implEmptyLbl ("chr1") 0 5 = [("")] ∧
    (annotate implEmptyLbl ("chr1") 0 5).tagOf = none := by
  decide

/-- C6 as amended.  For every successful annotate call the set of matching
label names is strictly sorted by name and characterized by the per-id
overlap queries, and the attached value is the comma joining of its
non-empty names — attached when some matching name is non-empty, and
explicitly cleared otherwise (no match, or only empty-named matches). -/
theorem c6_regions_tag (impl : QuantifyRegionsImpl) (chr : String) (refstart refend : Int)
    (impl' : QuantifyRegionsImpl) (tag : Option String)
    (h : annotate impl chr refstart refend = AnnotateResult.ok impl' tag) :
    (regionsNames impl chr refstart refend).Sorted (fun a b => strLt a b = true) ∧
    (∀ s, s ∈ regionsNames impl chr refstart refend ↔
        ∃ b, alook chr impl.ib = some b ∧
          ∃ j, j < impl.names.length ∧ impl.names.getD j ("") = s ∧
            b.hasOverlap refstart refend j = true) ∧
    tag = (if (regionsNames impl chr refstart refend).filter (fun s => s ≠ ("")) = []
           then none
           else some (joinComma
             ((regionsNames impl chr refstart refend).filter (fun s => s ≠ (""))))) := by
  have htag : tag = (match alook chr impl.ib with
      | none => none
      | some b =>
        if renderTag (setOfList (collectMatching impl.names b refstart refend 0)) = ("")
        then none
        else some (renderTag (setOfList (collectMatching impl.names b refstart refend 0)))) := by
    unfold annotate at h
    by_cases hr : impl.current_chr = none ∨ impl.current_chr ≠ some chr
    · rw [if_pos hr] at h
      exact annotateCore_tag { impl with current_pos := -1 } chr refstart refend impl' tag h
    · rw [if_neg hr] at h
      exact annotateCore_tag impl chr refstart refend impl' tag h
  unfold regionsNames
  cases halk : alook chr impl.ib with
  | none =>
    simp only [halk] at htag
    refine ⟨by simp, ?_, by simpa using htag⟩
    intro s
    simp [halk]
  | some b =>
    simp only [halk] at htag
    refine ⟨setOfList_sorted _, ?_, ?_⟩
    · intro s
      rw [mem_setOfList, mem_collectMatching b refstart refend impl.names 0 s]
      constructor
      · rintro ⟨j, hj, hget, hov⟩
        exact ⟨b, rfl, j, hj, hget, by simpa using hov⟩
      · rintro ⟨b', hb', j, hj, hget, hov⟩
        injection hb' with hb'
        subst hb'
        exact ⟨j, hj, hget, by simpa using hov⟩
    · rw [htag]
      have hsorted := setOfList_sorted (collectMatching impl.names b refstart refend 0)
      by_cases hemp : renderTag (setOfList (collectMatching impl.names b refstart refend 0)) = ("")
      · rw [if_pos hemp, if_pos ((renderTag_empty_iff _ hsorted).mp hemp)]
      · rw [if_neg hemp, if_neg (fun hc => hemp ((renderTag_empty_iff _ hsorted).mpr hc)),
            renderTag_sorted_eq _ hsorted]

/-- Witness for C6 at the concrete compound-label engine. -/
theorem c6_witness :
    (annotate implA ("chr1") 0 9).tagOf =
      (if (regionsNames implA ("chr1") 0 9).filter (fun s => s ≠ ("")) = []
       then none
       else some (joinComma
         ((regionsNames implA ("chr1") 0 9).filter (fun s => s ≠ (""))))) :=
  (c6_regions_tag implA ("chr1") 0 9 (annotate implA ("chr1") 0 9).implOf
    ((annotate implA ("chr1") 0 9).tagOf) rfl).2.2

/-- C5.  Loading A:f.bed whose single row is chr1 0 10 foo creates exactly
the labels A and A_foo, both of region size 10, the interval [0, 9] is
stored under both ids on chr1 (so an overlap query on [0, 9] matches both
labels), and annotating a record on [0, 9] attaches both names. -/
theorem c5_compound_label_example :
    load initImpl fsA [("A:f.bed")] false = LoadResult.ok implA ∧
    implA.label_map = [(("A"), 0), (("A_foo"), 1)] ∧
    getRegionSize implA ("A") = 10 ∧
    getRegionSize implA ("A_foo") = 10 ∧
    (chrBuf implA ("chr1")).hasOverlap 0 9 0 = true ∧
    (chrBuf implA ("chr1")).hasOverlap 0 9 1 = true ∧
    (annotate implA ("chr1") 0 9).tagOf = some ("A,A_foo") := by
  decide

end Quantify

namespace Quantify

/-- The credit-and-insert block never touches the name table. -/
theorem insertStep_names (impl : QuantifyRegionsImpl) (chr : String)
    (s e : Int) (this_id lid : Nat) :
    (insertStep impl chr s e this_id lid).names = impl.names := by
  unfold insertStep
  split <;> rfl

/-- C4 counterexample.  The file CONF.bed loaded by bare path derives its
label CONF from the base name, yet the fixed-label test only runs in the
LABEL:path branch: the 4th column DOES split, creating the compound label
CONF_foo with its own size, against the claim. -/
theorem c4_counterexample :
    parseToken ("CONF.bed") = some (("CONF"), ("CONF.bed"), false) ∧
    hasRegions implConfBase ("CONF_foo") = true ∧
    getRegionSize implConfBase ("CONF_foo") = 10 := by
  decide

/-- Equation of processLine on a well-formed line without a 4th column:
insert under the base id only. -/
theorem processLine_good_none (c fl : Bool) (lb : String) (lid : Nat)
    (st : QuantifyRegionsImpl × LabelMap) (line chrRaw : String) (start stop : Int)
    (h : lineView line = LineStep.good chrRaw start stop none) :
    processLine c fl lb lid st line =
      (insertStep
         { st.1 with ib := ibEnsureChr st.1.ib (if c then fixchrName chrRaw else chrRaw) }
         (if c then fixchrName chrRaw else chrRaw) start stop lid lid, st.2) := by
  rw [processLine_good c fl lb lid st line chrRaw start stop none h]

/-- Equation of processLine on a fixed-label file with a 4th column: the
column is ignored and the line inserts under the base id only. -/
theorem processLine_good_some_fixed (c : Bool) (lb : String) (lid : Nat)
    (st : QuantifyRegionsImpl × LabelMap) (line chrRaw : String) (start stop : Int)
    (s4 : String) (h : lineView line = LineStep.good chrRaw start stop (some s4)) :
    processLine c true lb lid st line =
      (insertStep
         { st.1 with ib := ibEnsureChr st.1.ib (if c then fixchrName chrRaw else chrRaw) }
         (if c then fixchrName chrRaw else chrRaw) start stop lid lid, st.2) := by
  rw [processLine_good c true lb lid st line chrRaw start stop (some s4) h]
  rfl

/-- Equation of processLine on a splitting line: resolve the compound
label and insert under it and, when distinct, under the base id. -/
theorem processLine_good_some_split (c : Bool) (lb : String) (lid : Nat)
    (st : QuantifyRegionsImpl × LabelMap) (line chrRaw : String) (start stop : Int)
    (s4 : String) (h : lineView line = LineStep.good chrRaw start stop (some s4)) :
    processLine c false lb lid st line =
      (insertStep
         { st.1 with
           names := (resolveLabel st.1.names st.2 (lb ++ ("_") ++ s4)).2.1,
           ib := ibEnsureChr st.1.ib (if c then fixchrName chrRaw else chrRaw) }
         (if c then fixchrName chrRaw else chrRaw) start stop
         (resolveLabel st.1.names st.2 (lb ++ ("_") ++ s4)).1 lid,
       (resolveLabel st.1.names st.2 (lb ++ ("_") ++ s4)).2.2) := by
  rw [processLine_good c false lb lid st line chrRaw start stop (some s4) h]
  rfl

/-- On a fixed-label file one line changes neither the label map nor the
name table, and credits and inserts only under the base label id. -/
theorem processLine_fixed (c : Bool) (lb : String) (lid : Nat)
    (st : QuantifyRegionsImpl × LabelMap) (line : String) :
    ((processLine c true lb lid st line).2 = st.2) ∧
    ((processLine c true lb lid st line).1.names = st.1.names) ∧
    (∀ id, id ≠ lid →
      sizesLookup (processLine c true lb lid st line).1.region_sizes id =
        sizesLookup st.1.region_sizes id ∧
      ibSum (processLine c true lb lid st line).1.ib id = ibSum st.1.ib id) := by
  rcases hlv : lineView line with _ | chrRaw | ⟨chrRaw, start, stop, sub⟩
  · rw [processLine_short c true lb lid st line hlv]
    exact ⟨rfl, rfl, fun id _ => ⟨rfl, rfl⟩⟩
  · rw [processLine_bad c true lb lid st line chrRaw hlv]
    exact ⟨rfl, rfl, fun id _ => ⟨rfl, ibSum_ensure st.1.ib _ id⟩⟩
  · have heq :
        processLine c true lb lid st line =
          (insertStep
             { st.1 with ib := ibEnsureChr st.1.ib (if c then fixchrName chrRaw else chrRaw) }
             (if c then fixchrName chrRaw else chrRaw) start stop lid lid, st.2) := by
      cases sub with
      | none => exact processLine_good_none c true lb lid st line chrRaw start stop hlv
      | some s4 => exact processLine_good_some_fixed c lb lid st line chrRaw start stop s4 hlv
    rw [heq]
    refine ⟨rfl, insertStep_names _ _ _ _ _ _, ?_⟩
    intro id hid
    constructor
    · rw [insertStep_sizes, if_neg hid,
          if_neg (show ¬ (lid ≠ lid ∧ id = lid) from fun hc => hc.1 rfl)]
      rfl
    · rw [insertStep_ibSum _ _ _ _ _ _ _ (alook_ensure_self st.1.ib _), if_neg hid,
          if_neg (show ¬ (lid ≠ lid ∧ id = lid) from fun hc => hc.1 rfl)]
      show ibSum (ibEnsureChr st.1.ib _) id + (0 + 0) = ibSum st.1.ib id
      rw [ibSum_ensure]
      rfl

/-- On a fixed-label file a whole file changes neither the label map nor
the name table, and touches only the base label id. -/
theorem processLines_fixed (c : Bool) (lb : String) (lid : Nat) (lines : List String) :
    ∀ st : QuantifyRegionsImpl × LabelMap,
      ((processLines c true lb lid st lines).2 = st.2) ∧
      ((processLines c true lb lid st lines).1.names = st.1.names) ∧
      (∀ id, id ≠ lid →
        sizesLookup (processLines c true lb lid st lines).1.region_sizes id =
          sizesLookup st.1.region_sizes id ∧
        ibSum (processLines c true lb lid st lines).1.ib id = ibSum st.1.ib id) := by
  induction lines with
  | nil => intro st; exact ⟨rfl, rfl, fun id _ => ⟨rfl, rfl⟩⟩
  | cons line rest ih =>
    intro st
    have h1 := processLine_fixed c lb lid st line
    have h2 := ih (processLine c true lb lid st line)
    refine ⟨h2.1.trans h1.1, h2.2.1.trans h1.2.1, ?_⟩
    intro id hid
    exact ⟨(h2.2.2 id hid).1.trans (h1.2.2 id hid).1,
           (h2.2.2 id hid).2.trans (h1.2.2 id hid).2⟩

/-- C4 as amended.  A file given through an explicit CONF token is
fixed-label: processing it adds at most the base CONF binding to the
session label map (no compound label is created), and every size credit
and interval insertion lands on the base CONF id only.  (The
counterexample shows the base-name-derived CONF label is NOT fixed.) -/
theorem c4_conf_token_fixed (fs : Filesystem) (fixchr : Bool) (filename : String)
    (impl : QuantifyRegionsImpl) (lm : LabelMap)
    (impl' : QuantifyRegionsImpl) (lm' : LabelMap)
    (hsplit : splitDrop ':' ((("CONF:") : String) ++ filename) = [("CONF"), filename])
    (hstep : processToken fs fixchr impl lm ((("CONF:") : String) ++ filename) =
      LoadStep.ok impl' lm') :
    (lm' = lm ∨ (alook ("CONF") lm = none ∧
        lm' = lm ++ [(("CONF"), impl.names.length)])) ∧
    (∀ id, id ≠ (match alook ("CONF") lm with
                 | some i => i
                 | none => impl.names.length) →
      sizesLookup impl'.region_sizes id = sizesLookup impl.region_sizes id ∧
      ibSum impl'.ib id = ibSum impl.ib id) := by
  have hp : parseToken ((("CONF:") : String) ++ filename) =
      some (("CONF"), filename, true) := by
    unfold parseToken
    rw [hsplit]
    rfl
  unfold processToken at hstep
  rw [hp] at hstep
  cases hfs : fs filename with
  | none =>
    simp only [hfs] at hstep
    exact LoadStep.noConfusion hstep
  | some lines =>
    simp only [hfs] at hstep
    injection hstep with h1 h2
    cases halb : alook ("CONF") lm with
    | some i =>
      have hr : resolveLabel impl.names lm ("CONF") = (i, impl.names, lm) := by
        unfold resolveLabel
        rw [halb]
      rw [hr] at h1 h2
      have hl := processLines_fixed fixchr ("CONF") i lines ({ impl with names := impl.names }, lm)
      refine ⟨Or.inl (h2.symm.trans hl.1), ?_⟩
      intro id hid
      rw [← h1]
      exact hl.2.2 id hid
    | none =>
      have hr : resolveLabel impl.names lm ("CONF") =
          (impl.names.length, impl.names ++ [("CONF")],
           lm ++ [(("CONF"), impl.names.length)]) := by
        unfold resolveLabel
        rw [halb]
      rw [hr] at h1 h2
      have hl := processLines_fixed fixchr ("CONF") impl.names.length lines
        ({ impl with names := impl.names ++ [("CONF")] }, lm ++ [(("CONF"), impl.names.length)])
      refine ⟨Or.inr ⟨rfl, h2.symm.trans hl.1⟩, ?_⟩
      intro id hid
      rw [← h1]
      exact hl.2.2 id hid

/-- Witness for C4's amended theorem at the concrete token CONF:g.bed on a
fresh engine: an id other than the base id is untouched. -/
theorem c4_witness :
    sizesLookup (confTokStep.implOf).region_sizes 5 = sizesLookup initImpl.region_sizes 5 ∧
    ibSum (confTokStep.implOf).ib 5 = ibSum initImpl.ib 5 :=
  (c4_conf_token_fixed fsConfTok false ("g.bed") initImpl []
    (confTokStep.implOf) (confTokStep.lmOf) (by decide) rfl).2 5 (by decide)

end Quantify

namespace Quantify

/-- Size accumulator is untouched by updating the interval store. -/
theorem sizes_set_ib (impl : QuantifyRegionsImpl) (x : List (String × IntervalBuffer)) (id : Nat) :
    sizesLookup ({ impl with ib := x }).region_sizes id = sizesLookup impl.region_sizes id := rfl

/-- Size accumulator is untouched by updating the name table. -/
theorem sizes_set_names_ib (impl : QuantifyRegionsImpl) (ns : List String)
    (x : List (String × IntervalBuffer)) (id : Nat) :
    sizesLookup ({ impl with names := ns, ib := x }).region_sizes id =
      sizesLookup impl.region_sizes id := rfl

/-- One line only appends to the session label map. -/
theorem processLine_lm_append (c fl : Bool) (lb : String) (lid : Nat)
    (st : QuantifyRegionsImpl × LabelMap) (line : String) :
    ∃ ext, (processLine c fl lb lid st line).2 = st.2 ++ ext := by
  rcases hlv : lineView line with _ | chrRaw | ⟨chrRaw, start, stop, sub⟩
  · rw [processLine_short c fl lb lid st line hlv]
    exact ⟨[], by simp⟩
  · rw [processLine_bad c fl lb lid st line chrRaw hlv]
    exact ⟨[], by simp⟩
  · cases sub with
    | none =>
      rw [processLine_good_none c fl lb lid st line chrRaw start stop hlv]
      exact ⟨[], by simp⟩
    | some s4 =>
      cases fl with
      | true =>
        rw [processLine_good_some_fixed c lb lid st line chrRaw start stop s4 hlv]
        exact ⟨[], by simp⟩
      | false =>
        rw [processLine_good_some_split c lb lid st line chrRaw start stop s4 hlv]
        cases halb : alook (lb ++ ("_") ++ s4) st.2 with
        | some v =>
          rw [show resolveLabel st.1.names st.2 (lb ++ ("_") ++ s4) = (v, st.1.names, st.2) from by
                unfold resolveLabel
                rw [halb]]
          exact ⟨[], by simp⟩
        | none =>
          rw [show resolveLabel st.1.names st.2 (lb ++ ("_") ++ s4) =
                (st.1.names.length, st.1.names ++ [lb ++ ("_") ++ s4],
                 st.2 ++ [(lb ++ ("_") ++ s4, st.1.names.length)]) from by
                unfold resolveLabel
                rw [halb]]
          exact ⟨[(lb ++ ("_") ++ s4, st.1.names.length)], rfl⟩

/-- A whole file only appends to the session label map. -/
theorem processLines_lm_append (c fl : Bool) (lb : String) (lid : Nat) (lines : List String) :
    ∀ st : QuantifyRegionsImpl × LabelMap,
      ∃ ext, (processLines c fl lb lid st lines).2 = st.2 ++ ext := by
  induction lines with
  | nil =>
    intro st
    refine ⟨[], ?_⟩
    show st.2 = st.2 ++ []
    simp
  | cons line rest ih =>
    intro st
    obtain ⟨e1, h1⟩ := processLine_lm_append c fl lb lid st line
    obtain ⟨e2, h2⟩ := ih (processLine c fl lb lid st line)
    refine ⟨e1 ++ e2, ?_⟩
    show (processLines c fl lb lid (processLine c fl lb lid st line) rest).2 = _
    rw [h2, h1, List.append_assoc]

end Quantify

namespace Quantify

/-- Replaying one line after its label bindings are already in the session
map leaves the map unchanged and adds the same size increments. -/
theorem processLine_replay (c fl : Bool) (lb : String) (lid : Nat) (line : String)
    (impl1 implB : QuantifyRegionsImpl) (lm1 ext : LabelMap) :
    ∃ iBa,
      processLine c fl lb lid (implB, (processLine c fl lb lid (impl1, lm1) line).2 ++ ext) line
        = (iBa, (processLine c fl lb lid (impl1, lm1) line).2 ++ ext) ∧
      ∀ id, sizesLookup iBa.region_sizes id + sizesLookup impl1.region_sizes id =
        sizesLookup (processLine c fl lb lid (impl1, lm1) line).1.region_sizes id +
        sizesLookup implB.region_sizes id := by
  rcases hlv : lineView line with _ | chrRaw | ⟨chrRaw, start, stop, sub⟩
  · rw [processLine_short c fl lb lid (impl1, lm1) line hlv]
    dsimp only
    exact ⟨implB, processLine_short c fl lb lid (implB, lm1 ++ ext) line hlv,
           fun id => by omega⟩
  · rw [processLine_bad c fl lb lid (impl1, lm1) line chrRaw hlv]
    dsimp only
    refine ⟨{ implB with ib := ibEnsureChr implB.ib (if c then fixchrName chrRaw else chrRaw) },
            processLine_bad c fl lb lid (implB, lm1 ++ ext) line chrRaw hlv,
            fun id => ?_⟩
    dsimp only
    omega
  · cases sub with
    | none =>
      rw [processLine_good_none c fl lb lid (impl1, lm1) line chrRaw start stop hlv]
      dsimp only
      refine ⟨_, processLine_good_none c fl lb lid (implB, lm1 ++ ext) line chrRaw start stop hlv,
              fun id => ?_⟩
      rw [insertStep_sizes, insertStep_sizes]
      dsimp only
      omega
    | some s4 =>
      cases fl with
      | true =>
        rw [processLine_good_some_fixed c lb lid (impl1, lm1) line chrRaw start stop s4 hlv]
        dsimp only
        refine ⟨_, processLine_good_some_fixed c lb lid (implB, lm1 ++ ext) line chrRaw start stop s4 hlv,
                fun id => ?_⟩
        rw [insertStep_sizes, insertStep_sizes]
        dsimp only
        omega
      | false =>
        rw [processLine_good_some_split c lb lid (impl1, lm1) line chrRaw start stop s4 hlv]
        dsimp only
        cases halb : alook (lb ++ ("_") ++ s4) lm1 with
        | some v =>
          rw [show resolveLabel impl1.names lm1 (lb ++ ("_") ++ s4) = (v, impl1.names, lm1) from by
                unfold resolveLabel
                rw [halb]]
          dsimp only
          refine ⟨insertStep
              { implB with
                ib := ibEnsureChr implB.ib (if c then fixchrName chrRaw else chrRaw) }
              (if c then fixchrName chrRaw else chrRaw) start stop v lid, ?_, fun id => ?_⟩
          · rw [processLine_good_some_split c lb lid (implB, lm1 ++ ext) line chrRaw start stop s4 hlv]
            dsimp only
            rw [show resolveLabel implB.names (lm1 ++ ext) (lb ++ ("_") ++ s4) =
                  (v, implB.names, lm1 ++ ext) from by
                  unfold resolveLabel
                  rw [alook_append_some ext halb]]
          · rw [insertStep_sizes, insertStep_sizes]
            dsimp only
            omega
        | none =>
          rw [show resolveLabel impl1.names lm1 (lb ++ ("_") ++ s4) =
                (impl1.names.length, impl1.names ++ [lb ++ ("_") ++ s4],
                 lm1 ++ [(lb ++ ("_") ++ s4, impl1.names.length)]) from by
                unfold resolveLabel
                rw [halb]]
          dsimp only
          refine ⟨insertStep
              { implB with
                ib := ibEnsureChr implB.ib (if c then fixchrName chrRaw else chrRaw) }
              (if c then fixchrName chrRaw else chrRaw) start stop impl1.names.length lid,
            ?_, fun id => ?_⟩
          · rw [processLine_good_some_split c lb lid
                  (implB, (lm1 ++ [(lb ++ ("_") ++ s4, impl1.names.length)]) ++ ext)
                  line chrRaw start stop s4 hlv]
            dsimp only
            rw [show resolveLabel implB.names
                  ((lm1 ++ [(lb ++ ("_") ++ s4, impl1.names.length)]) ++ ext)
                  (lb ++ ("_") ++ s4) =
                  (impl1.names.length, implB.names,
                   (lm1 ++ [(lb ++ ("_") ++ s4, impl1.names.length)]) ++ ext) from by
                  unfold resolveLabel
                  rw [List.append_assoc, alook_append_none _ halb, List.singleton_append,
                      alook_cons, if_pos rfl]]
          · rw [insertStep_sizes, insertStep_sizes]
            dsimp only
            omega

end Quantify

namespace Quantify

/-- Replaying a whole file after its label bindings are in the session map
leaves the map unchanged and adds the same size increments again. -/
theorem processLines_replay (c fl : Bool) (lb : String) (lid : Nat) (lines : List String) :
    ∀ (st : QuantifyRegionsImpl × LabelMap) (implB : QuantifyRegionsImpl) (ext : LabelMap),
      ∃ iB,
        processLines c fl lb lid (implB, (processLines c fl lb lid st lines).2 ++ ext) lines
          = (iB, (processLines c fl lb lid st lines).2 ++ ext) ∧
        ∀ id, sizesLookup iB.region_sizes id + sizesLookup st.1.region_sizes id =
          sizesLookup (processLines c fl lb lid st lines).1.region_sizes id +
          sizesLookup implB.region_sizes id := by
  induction lines with
  | nil =>
    intro st implB ext
    refine ⟨implB, rfl, fun id => ?_⟩
    show sizesLookup implB.region_sizes id + sizesLookup st.1.region_sizes id =
      sizesLookup st.1.region_sizes id + sizesLookup implB.region_sizes id
    omega
  | cons line rest ih =>
    intro st implB ext
    obtain ⟨ext2, happ⟩ :=
      processLines_lm_append c fl lb lid rest (processLine c fl lb lid st line)
    show ∃ iB,
        processLines c fl lb lid
            (implB, (processLines c fl lb lid (processLine c fl lb lid st line) rest).2 ++ ext)
            (line :: rest)
          = (iB, (processLines c fl lb lid (processLine c fl lb lid st line) rest).2 ++ ext) ∧
        ∀ id, sizesLookup iB.region_sizes id + sizesLookup st.1.region_sizes id =
          sizesLookup (processLines c fl lb lid (processLine c fl lb lid st line) rest).1.region_sizes id +
          sizesLookup implB.region_sizes id
    rw [happ, List.append_assoc]
    obtain ⟨iBa, hline, hdelta⟩ := processLine_replay c fl lb lid line st.1 implB st.2 (ext2 ++ ext)
    rw [Prod.mk.eta] at hline hdelta
    show ∃ iB,
        processLines c fl lb lid
            (processLine c fl lb lid
              (implB, (processLine c fl lb lid st line).2 ++ (ext2 ++ ext)) line) rest
          = (iB, (processLine c fl lb lid st line).2 ++ (ext2 ++ ext)) ∧
        ∀ id, sizesLookup iB.region_sizes id + sizesLookup st.1.region_sizes id =
          sizesLookup (processLines c fl lb lid (processLine c fl lb lid st line) rest).1.region_sizes id +
          sizesLookup implB.region_sizes id
    rw [hline]
    obtain ⟨iB, hrest, hdelta2⟩ := ih (processLine c fl lb lid st line) iBa ext
    rw [happ, List.append_assoc] at hrest
    refine ⟨iB, hrest, fun id => ?_⟩
    have d1 := hdelta id
    have d2 := hdelta2 id
    omega

end Quantify

namespace Quantify

/-- Replaying one token from the state it produced resolves every label to
the id of the first pass, leaves the session map unchanged, and adds the
same size increments again. -/
theorem processToken_replay (fs : Filesystem) (c : Bool) (f : String)
    (impl0 : QuantifyRegionsImpl) (lm0 : LabelMap)
    (iM : QuantifyRegionsImpl) (lmM : LabelMap)
    (h : processToken fs c impl0 lm0 f = LoadStep.ok iM lmM) :
    ∃ i2, processToken fs c iM lmM f = LoadStep.ok i2 lmM ∧
      ∀ id, sizesLookup i2.region_sizes id + sizesLookup impl0.region_sizes id =
        sizesLookup iM.region_sizes id + sizesLookup iM.region_sizes id := by
  cases hp : parseToken f with
  | none =>
    unfold processToken at h
    simp only [hp] at h
    exact LoadStep.noConfusion h
  | some t =>
    obtain ⟨label, filename, fixed⟩ := t
    cases hfs : fs filename with
    | none =>
      unfold processToken at h
      simp only [hp, hfs] at h
      exact LoadStep.noConfusion h
    | some lines =>
      rw [processToken_eq_ok fs c impl0 lm0 f label filename fixed lines hp hfs] at h
      injection h with h1 h2
      cases halb : alook label lm0 with
      | some b =>
        have hr1 : resolveLabel impl0.names lm0 label = (b, impl0.names, lm0) := by
          unfold resolveLabel
          rw [halb]
        rw [hr1] at h1 h2
        dsimp only at h1 h2
        obtain ⟨ext2, happ⟩ :=
          processLines_lm_append c fixed label b lines ({ impl0 with names := impl0.names }, lm0)
        dsimp only at happ
        have hres2 : resolveLabel iM.names lmM label = (b, iM.names, lmM) := by
          unfold resolveLabel
          rw [← h2, happ, alook_append_some ext2 halb]
        rw [processToken_eq_ok fs c iM lmM f label filename fixed lines hp hfs, hres2]
        dsimp only
        obtain ⟨iB, hrest, hdelta⟩ :=
          processLines_replay c fixed label b lines
            ({ impl0 with names := impl0.names }, lm0) iM []
        rw [List.append_nil] at hrest
        dsimp only at hrest hdelta
        rw [h2] at hrest
        refine ⟨iB, ?_, fun id => ?_⟩
        · rw [hrest]
        · have hd := hdelta id
          rw [h1] at hd
          have : sizesLookup ({ impl0 with names := impl0.names } :
              QuantifyRegionsImpl).region_sizes id = sizesLookup impl0.region_sizes id := rfl
          rw [this] at hd
          omega
      | none =>
        have hr1 : resolveLabel impl0.names lm0 label =
            (impl0.names.length, impl0.names ++ [label],
             lm0 ++ [(label, impl0.names.length)]) := by
          unfold resolveLabel
          rw [halb]
        rw [hr1] at h1 h2
        dsimp only at h1 h2
        obtain ⟨ext2, happ⟩ :=
          processLines_lm_append c fixed label impl0.names.length lines
            ({ impl0 with names := impl0.names ++ [label] }, lm0 ++ [(label, impl0.names.length)])
        dsimp only at happ
        have hres2 : resolveLabel iM.names lmM label =
            (impl0.names.length, iM.names, lmM) := by
          unfold resolveLabel
          rw [← h2, happ, List.append_assoc, alook_append_none _ halb,
              List.singleton_append, alook_cons, if_pos rfl]
        rw [processToken_eq_ok fs c iM lmM f label filename fixed lines hp hfs, hres2]
        dsimp only
        obtain ⟨iB, hrest, hdelta⟩ :=
          processLines_replay c fixed label impl0.names.length lines
            ({ impl0 with names := impl0.names ++ [label] }, lm0 ++ [(label, impl0.names.length)])
            iM []
        rw [List.append_nil] at hrest
        dsimp only at hrest hdelta
        rw [h2] at hrest
        refine ⟨iB, ?_, fun id => ?_⟩
        · rw [hrest]
        · have hd := hdelta id
          rw [h1] at hd
          have : sizesLookup ({ impl0 with names := impl0.names ++ [label] } :
              QuantifyRegionsImpl).region_sizes id = sizesLookup impl0.region_sizes id := rfl
          rw [this] at hd
          omega

end Quantify

namespace Quantify

/-- C7.  Within a single load call on a fresh engine, listing the same
file token twice yields exactly twice the region size of every label that
listing it once yields: the accumulator is additive over insertions with
no deduplication. -/
theorem c7_double_load_doubles (fs : Filesystem) (fixchr : Bool) (f : String)
    (i1 i2 : QuantifyRegionsImpl)
    (h1 : load initImpl fs [f] fixchr = LoadResult.ok i1)
    (h2 : load initImpl fs [f, f] fixchr = LoadResult.ok i2) (name : String) :
    getRegionSize i2 name = 2 * getRegionSize i1 name := by
  unfold load at h1 h2
  cases hpt : processToken fs fixchr initImpl [] f with
  | fatal m =>
    rw [show loadTokens fs fixchr initImpl [] [f] = LoadStep.fatal m from by
          unfold loadTokens
          rw [hpt]] at h1
    exact LoadResult.noConfusion h1
  | crash =>
    rw [show loadTokens fs fixchr initImpl [] [f] = LoadStep.crash from by
          unfold loadTokens
          rw [hpt]] at h1
    exact LoadResult.noConfusion h1
  | ok iM lmM =>
    rw [show loadTokens fs fixchr initImpl [] [f] = LoadStep.ok iM lmM from by
          unfold loadTokens
          rw [hpt]
          rfl] at h1
    injection h1 with h1e
    obtain ⟨i2', hrep, hdelta⟩ := processToken_replay fs fixchr f initImpl [] iM lmM hpt
    rw [show loadTokens fs fixchr initImpl [] [f, f] = LoadStep.ok i2' lmM from by
          unfold loadTokens
          rw [hpt]
          unfold loadTokens
          rw [hrep]
          rfl] at h2
    injection h2 with h2e
    rw [← h1e, ← h2e, getRegionSize_eq, getRegionSize_eq]
    show (match alook name lmM with
          | none => 0
          | some id => sizesLookup i2'.region_sizes id) =
      2 * (match alook name lmM with
           | none => 0
           | some id => sizesLookup iM.region_sizes id)
    cases alook name lmM with
    | none => rfl
    | some id =>
      have hd := hdelta id
      have hz : sizesLookup initImpl.region_sizes id = 0 := rfl
      rw [hz] at hd
      show sizesLookup i2'.region_sizes id = 2 * sizesLookup iM.region_sizes id
      omega

/-- Witness for C7 at the concrete world fsA with token A:f.bed. -/
theorem c7_witness : getRegionSize implA2 ("A") = 2 * getRegionSize implA ("A") :=
  c7_double_load_doubles fsA false ("A:f.bed") implA implA2 rfl rfl ("A")

end Quantify

namespace Quantify

/-- Presence of a key is stable under right extension of the map. -/
theorem alook_isSome_append {κ β : Type} [DecidableEq κ] {k : κ} {m : List (κ × β)}
    (ext : List (κ × β)) (h : (alook k m).isSome = true) :
    (alook k (m ++ ext)).isSome = true := by
  cases hm : alook k m with
  | none =>
    rw [hm] at h
    exact absurd h (by simp)
  | some v =>
    rw [alook_append_some ext hm]
    rfl

/-- Label resolution only appends to the session map. -/
theorem resolveLabel_lm_append (ns : List String) (lm : LabelMap) (l : String) :
    ∃ ext, (resolveLabel ns lm l).2.2 = lm ++ ext := by
  unfold resolveLabel
  cases h : alook l lm with
  | none => exact ⟨[(l, ns.length)], rfl⟩
  | some id => exact ⟨[], by simp⟩

/-- Label resolution binds the resolved label. -/
theorem resolveLabel_lm_self (ns : List String) (lm : LabelMap) (l : String) :
    (alook l (resolveLabel ns lm l).2.2).isSome = true := by
  unfold resolveLabel
  cases h : alook l lm with
  | none =>
    show (alook l (lm ++ [(l, ns.length)])).isSome = true
    rw [alook_append_none _ h, alook_cons, if_pos rfl]
    rfl
  | some id =>
    show (alook l lm).isSome = true
    rw [h]
    rfl

/-- Any key bound after one line was bound before or is the line's
compound label built from the file's base label. -/
theorem processLine_lm_keys (c fl : Bool) (lb : String) (lid : Nat)
    (st : QuantifyRegionsImpl × LabelMap) (line name : String)
    (h : (alook name (processLine c fl lb lid st line).2).isSome = true) :
    (alook name st.2).isSome = true ∨ ∃ s, name = lb ++ ("_") ++ s := by
  rcases hlv : lineView line with _ | chrRaw | ⟨chrRaw, start, stop, sub⟩
  · rw [processLine_short c fl lb lid st line hlv] at h
    exact Or.inl h
  · rw [processLine_bad c fl lb lid st line chrRaw hlv] at h
    exact Or.inl h
  · cases sub with
    | none =>
      rw [processLine_good_none c fl lb lid st line chrRaw start stop hlv] at h
      exact Or.inl h
    | some s4 =>
      cases fl with
      | true =>
        rw [processLine_good_some_fixed c lb lid st line chrRaw start stop s4 hlv] at h
        exact Or.inl h
      | false =>
        rw [processLine_good_some_split c lb lid st line chrRaw start stop s4 hlv] at h
        cases halb : alook (lb ++ ("_") ++ s4) st.2 with
        | some v =>
          rw [show resolveLabel st.1.names st.2 (lb ++ ("_") ++ s4) = (v, st.1.names, st.2) from by
                unfold resolveLabel
                rw [halb]] at h
          exact Or.inl h
        | none =>
          rw [show resolveLabel st.1.names st.2 (lb ++ ("_") ++ s4) =
                (st.1.names.length, st.1.names ++ [lb ++ ("_") ++ s4],
                 st.2 ++ [(lb ++ ("_") ++ s4, st.1.names.length)]) from by
                unfold resolveLabel
                rw [halb]] at h
          have h2 : (alook name (st.2 ++ [(lb ++ ("_") ++ s4, st.1.names.length)])).isSome = true := h
          cases hm : alook name st.2 with
          | some v => exact Or.inl (by simp [hm])
          | none =>
            rw [alook_append_none _ hm, alook_cons] at h2
            by_cases hn : name = lb ++ ("_") ++ s4
            · exact Or.inr ⟨s4, hn⟩
            · rw [if_neg hn] at h2
              simp [alook] at h2

/-- Any key bound after a whole file was bound before or is a compound
label of the file's base label. -/
theorem processLines_lm_keys (c fl : Bool) (lb : String) (lid : Nat) (lines : List String) :
    ∀ st : QuantifyRegionsImpl × LabelMap, ∀ name : String,
      (alook name (processLines c fl lb lid st lines).2).isSome = true →
      (alook name st.2).isSome = true ∨ ∃ s, name = lb ++ ("_") ++ s := by
  induction lines with
  | nil =>
    intro st name h
    exact Or.inl h
  | cons line rest ih =>
    intro st name h
    have h1 : (alook name (processLines c fl lb lid
        (processLine c fl lb lid st line) rest).2).isSome = true := h
    cases ih (processLine c fl lb lid st line) name h1 with
    | inl hh => exact processLine_lm_keys c fl lb lid st line name hh
    | inr hh => exact Or.inr hh

/-- One token only appends to the session label map. -/
theorem processToken_lm_append (fs : Filesystem) (c : Bool)
    (impl : QuantifyRegionsImpl) (lm : LabelMap) (f : String)
    (i' : QuantifyRegionsImpl) (lm' : LabelMap)
    (h : processToken fs c impl lm f = LoadStep.ok i' lm') :
    ∃ ext, lm' = lm ++ ext := by
  cases hp : parseToken f with
  | none =>
    unfold processToken at h
    simp only [hp] at h
    exact LoadStep.noConfusion h
  | some t =>
    obtain ⟨label, filename, fixed⟩ := t
    cases hfs : fs filename with
    | none =>
      unfold processToken at h
      simp only [hp, hfs] at h
      exact LoadStep.noConfusion h
    | some lines =>
      rw [processToken_eq_ok fs c impl lm f label filename fixed lines hp hfs] at h
      injection h with h1 h2
      obtain ⟨e1, he1⟩ := resolveLabel_lm_append impl.names lm label
      obtain ⟨e2, he2⟩ := processLines_lm_append c fixed label
        (resolveLabel impl.names lm label).1 lines
        ({ impl with names := (resolveLabel impl.names lm label).2.1 },
         (resolveLabel impl.names lm label).2.2)
      refine ⟨e1 ++ e2, ?_⟩
      rw [← h2, he2]
      show (resolveLabel impl.names lm label).2.2 ++ e2 = lm ++ (e1 ++ e2)
      rw [he1, List.append_assoc]

/-- Any key bound after one token was bound before or is established by
that token. -/
theorem processToken_lm_keys (fs : Filesystem) (c : Bool)
    (impl : QuantifyRegionsImpl) (lm : LabelMap) (f : String)
    (i' : QuantifyRegionsImpl) (lm' : LabelMap)
    (h : processToken fs c impl lm f = LoadStep.ok i' lm') (name : String)
    (hk : (alook name lm').isSome = true) :
    (alook name lm).isSome = true ∨ estabBy f name := by
  cases hp : parseToken f with
  | none =>
    unfold processToken at h
    simp only [hp] at h
    exact LoadStep.noConfusion h
  | some t =>
    obtain ⟨label, filename, fixed⟩ := t
    cases hfs : fs filename with
    | none =>
      unfold processToken at h
      simp only [hp, hfs] at h
      exact LoadStep.noConfusion h
    | some lines =>
      rw [processToken_eq_ok fs c impl lm f label filename fixed lines hp hfs] at h
      injection h with h1 h2
      rw [← h2] at hk
      cases processLines_lm_keys c fixed label (resolveLabel impl.names lm label).1 lines
          ({ impl with names := (resolveLabel impl.names lm label).2.1 },
           (resolveLabel impl.names lm label).2.2) name hk with
      | inr hh => exact Or.inr ⟨label, filename, fixed, hp, Or.inr hh⟩
      | inl hh =>
        have hh2 : (alook name (resolveLabel impl.names lm label).2.2).isSome = true := hh
        cases hres : alook label lm with
        | some id =>
          refine Or.inl ?_
          rwa [show resolveLabel impl.names lm label = (id, impl.names, lm) from by
                unfold resolveLabel
                rw [hres]] at hh2
        | none =>
          rw [show resolveLabel impl.names lm label =
                (impl.names.length, impl.names ++ [label],
                 lm ++ [(label, impl.names.length)]) from by
                unfold resolveLabel
                rw [hres]] at hh2
          cases hm : alook name lm with
          | some v => exact Or.inl (by simp [hm])
          | none =>
            have hh3 : (alook name (lm ++ [(label, impl.names.length)])).isSome = true := hh2
            rw [alook_append_none _ hm, alook_cons] at hh3
            by_cases hn : name = label
            · exact Or.inr ⟨label, filename, fixed, hp, Or.inl hn⟩
            · rw [if_neg hn] at hh3
              simp [alook] at hh3

/-- The token's base label is bound after a successful token. -/
theorem processToken_lm_base (fs : Filesystem) (c : Bool)
    (impl : QuantifyRegionsImpl) (lm : LabelMap) (f label filename : String) (fixed : Bool)
    (i' : QuantifyRegionsImpl) (lm' : LabelMap)
    (h : processToken fs c impl lm f = LoadStep.ok i' lm')
    (hp : parseToken f = some (label, filename, fixed)) :
    (alook label lm').isSome = true := by
  cases hfs : fs filename with
  | none =>
    unfold processToken at h
    simp only [hp, hfs] at h
    exact LoadStep.noConfusion h
  | some lines =>
    rw [processToken_eq_ok fs c impl lm f label filename fixed lines hp hfs] at h
    injection h with h1 h2
    obtain ⟨e2, he2⟩ := processLines_lm_append c fixed label
      (resolveLabel impl.names lm label).1 lines
      ({ impl with names := (resolveLabel impl.names lm label).2.1 },
       (resolveLabel impl.names lm label).2.2)
    rw [← h2, he2]
    show (alook label ((resolveLabel impl.names lm label).2.2 ++ e2)).isSome = true
    exact alook_isSome_append e2 (resolveLabel_lm_self impl.names lm label)

/-- A token list only appends to the session label map. -/
theorem loadTokens_lm_append (fs : Filesystem) (c : Bool) (toks : List String) :
    ∀ impl lm i' lm', loadTokens fs c impl lm toks = LoadStep.ok i' lm' →
      ∃ ext, lm' = lm ++ ext := by
  induction toks with
  | nil =>
    intro impl lm i' lm' h
    unfold loadTokens at h
    injection h with h1 h2
    exact ⟨[], by rw [← h2]; simp⟩
  | cons f rest ih =>
    intro impl lm i' lm' h
    unfold loadTokens at h
    cases hstep : processToken fs c impl lm f with
    | ok ia la =>
      rw [hstep] at h
      obtain ⟨e1, he1⟩ := processToken_lm_append fs c impl lm f ia la hstep
      obtain ⟨e2, he2⟩ := ih ia la i' lm' h
      exact ⟨e1 ++ e2, by rw [he2, he1, List.append_assoc]⟩
    | fatal m =>
      rw [hstep] at h
      exact LoadStep.noConfusion h
    | crash =>
      rw [hstep] at h
      exact LoadStep.noConfusion h

/-- Any key of the final session map was bound initially or is
established by some token of the list. -/
theorem loadTokens_lm_keys (fs : Filesystem) (c : Bool) (toks : List String) :
    ∀ impl lm i' lm', loadTokens fs c impl lm toks = LoadStep.ok i' lm' →
      ∀ name, (alook name lm').isSome = true →
        (alook name lm).isSome = true ∨ ∃ f ∈ toks, estabBy f name := by
  induction toks with
  | nil =>
    intro impl lm i' lm' h name hk
    unfold loadTokens at h
    injection h with h1 h2
    rw [← h2] at hk
    exact Or.inl hk
  | cons f rest ih =>
    intro impl lm i' lm' h name hk
    unfold loadTokens at h
    cases hstep : processToken fs c impl lm f with
    | ok ia la =>
      rw [hstep] at h
      cases ih ia la i' lm' h name hk with
      | inr hh =>
        obtain ⟨g, hg, he⟩ := hh
        exact Or.inr ⟨g, List.mem_cons_of_mem f hg, he⟩
      | inl hh =>
        cases processToken_lm_keys fs c impl lm f ia la hstep name hh with
        | inl h0 => exact Or.inl h0
        | inr h0 => exact Or.inr ⟨f, List.mem_cons_self f rest, h0⟩
    | fatal m =>
      rw [hstep] at h
      exact LoadStep.noConfusion h
    | crash =>
      rw [hstep] at h
      exact LoadStep.noConfusion h

/-- Every token's base label is bound in the final session map. -/
theorem loadTokens_lm_base (fs : Filesystem) (c : Bool) (toks : List String) :
    ∀ impl lm i' lm', loadTokens fs c impl lm toks = LoadStep.ok i' lm' →
      ∀ f ∈ toks, ∀ label filename fixed,
        parseToken f = some (label, filename, fixed) →
        (alook label lm').isSome = true := by
  induction toks with
  | nil =>
    intro impl lm i' lm' h f hf
    exact absurd hf (List.not_mem_nil f)
  | cons g rest ih =>
    intro impl lm i' lm' h f hf label filename fixed hp
    unfold loadTokens at h
    cases hstep : processToken fs c impl lm g with
    | ok ia la =>
      rw [hstep] at h
      cases List.mem_cons.mp hf with
      | inr hmem => exact ih ia la i' lm' h f hmem label filename fixed hp
      | inl heq =>
        subst heq
        have hbase := processToken_lm_base fs c impl lm f label filename fixed ia la hstep hp
        obtain ⟨ext, hext⟩ := loadTokens_lm_append fs c rest ia la i' lm' h
        rw [hext]
        exact alook_isSome_append ext hbase
    | fatal m =>
      rw [hstep] at h
      exact LoadStep.noConfusion h
    | crash =>
      rw [hstep] at h
      exact LoadStep.noConfusion h

/-- C9.  After a load call, hasRegions is true for the base label of
every spec token of that call — even when the token's file has no lines
at all — and hasRegions is true only for names the call's tokens can
establish (a token's base label or a compound of it): every other name
reports false. -/
theorem c9_hasRegions_established (impl0 : QuantifyRegionsImpl) (fs : Filesystem)
    (toks : List String) (fixchr : Bool) (i : QuantifyRegionsImpl)
    (h : load impl0 fs toks fixchr = LoadResult.ok i) :
    (∀ f ∈ toks, ∀ label filename fixed,
        parseToken f = some (label, filename, fixed) → hasRegions i label = true) ∧
    (∀ name, hasRegions i name = true → ∃ f ∈ toks, estabBy f name) := by
  unfold load at h
  cases hlt : loadTokens fs fixchr impl0 [] toks with
  | ok ia la =>
    rw [hlt] at h
    injection h with h1
    constructor
    · intro f hf label filename fixed hp
      have hb := loadTokens_lm_base fs fixchr toks impl0 [] ia la hlt f hf label filename fixed hp
      rw [← h1]
      show (alook label la).isSome = true
      exact hb
    · intro name hn
      rw [← h1] at hn
      have hn2 : (alook name la).isSome = true := hn
      cases loadTokens_lm_keys fs fixchr toks impl0 [] ia la hlt name hn2 with
      | inl h0 => simp [alook] at h0
      | inr h0 => exact h0
  | fatal m =>
    rw [hlt] at h
    exact LoadResult.noConfusion h
  | crash =>
    rw [hlt] at h
    exact LoadResult.noConfusion h

/-- Witness for C9: the token E:empty.bed over an empty bed file still
establishes its base label E, while the name NOPE, which no token of the
call can establish, reports false. -/
theorem c9_witness :
    hasRegions implE ("E") = true ∧ hasRegions implE ("NOPE") = false := by
  have h := c9_hasRegions_established initImpl fsEmptyBed [("E:empty.bed")] false implE rfl
  constructor
  · exact h.1 ("E:empty.bed") (List.mem_singleton.mpr rfl) ("E") ("empty.bed") false rfl
  · cases hx : hasRegions implE ("NOPE") with
    | false => rfl
    | true =>
      obtain ⟨f, hf, l, fn, fx, hp, hname⟩ := h.2 ("NOPE") hx
      rw [List.mem_singleton] at hf
      subst hf
      rw [show parseToken ("E:empty.bed") = some (("E"), ("empty.bed"), false) from rfl] at hp
      injection hp with hp1
      injection hp1 with hl hrest
      subst hl
      cases hname with
      | inl h0 => exact absurd h0 (by decide)
      | inr h0 =>
        obtain ⟨s, hs⟩ := h0
        have hd := congrArg String.data hs
        rw [show ((("E") : String) ++ ("_") ++ s).data = 'E' :: '_' :: s.data from rfl] at hd
        rw [show (("NOPE") : String).data = ['N', 'O', 'P', 'E'] from rfl] at hd
        injection hd with hc hrest2
        exact absurd hc (by decide)

end Quantify

namespace Quantify

/-- Label resolution only appends to the name table. -/
theorem resolveLabel_names_append (ns : List String) (lm : LabelMap) (l : String) :
    ∃ ext, (resolveLabel ns lm l).2.1 = ns ++ ext := by
  unfold resolveLabel
  cases h : alook l lm with
  | none => exact ⟨[l], rfl⟩
  | some id => exact ⟨[], by simp⟩

/-- Label resolution keeps every map key stored in the name table. -/
theorem resolveLabel_keys_names (ns : List String) (lm : LabelMap) (l : String)
    (hinv : ∀ n, (alook n lm).isSome = true → n ∈ ns) :
    ∀ n, (alook n (resolveLabel ns lm l).2.2).isSome = true →
      n ∈ (resolveLabel ns lm l).2.1 := by
  intro n hn
  cases h : alook l lm with
  | some id =>
    rw [show resolveLabel ns lm l = (id, ns, lm) from by
          unfold resolveLabel
          rw [h]] at hn ⊢
    exact hinv n hn
  | none =>
    rw [show resolveLabel ns lm l = (ns.length, ns ++ [l], lm ++ [(l, ns.length)]) from by
          unfold resolveLabel
          rw [h]] at hn ⊢
    have hn2 : (alook n (lm ++ [(l, ns.length)])).isSome = true := hn
    show n ∈ ns ++ [l]
    cases hm : alook n lm with
    | some v => exact List.mem_append_left _ (hinv n (by simp [hm]))
    | none =>
      rw [alook_append_none _ hm, alook_cons] at hn2
      by_cases heq : n = l
      · subst heq
        exact List.mem_append_right _ (List.mem_singleton.mpr rfl)
      · rw [if_neg heq] at hn2
        simp [alook] at hn2

/-- One line only appends to the name table. -/
theorem processLine_names_append (c fl : Bool) (lb : String) (lid : Nat)
    (st : QuantifyRegionsImpl × LabelMap) (line : String) :
    ∃ ext, (processLine c fl lb lid st line).1.names = st.1.names ++ ext := by
  rcases hlv : lineView line with _ | chrRaw | ⟨chrRaw, start, stop, sub⟩
  · rw [processLine_short c fl lb lid st line hlv]
    exact ⟨[], by simp⟩
  · rw [processLine_bad c fl lb lid st line chrRaw hlv]
    exact ⟨[], by simp⟩
  · cases sub with
    | none =>
      rw [processLine_good_none c fl lb lid st line chrRaw start stop hlv]
      refine ⟨[], ?_⟩
      rw [List.append_nil]
      show (insertStep
          { st.1 with ib := ibEnsureChr st.1.ib (if c then fixchrName chrRaw else chrRaw) }
          (if c then fixchrName chrRaw else chrRaw) start stop lid lid).names = st.1.names
      rw [insertStep_names]
    | some s4 =>
      cases fl with
      | true =>
        rw [processLine_good_some_fixed c lb lid st line chrRaw start stop s4 hlv]
        refine ⟨[], ?_⟩
        rw [List.append_nil]
        show (insertStep
            { st.1 with ib := ibEnsureChr st.1.ib (if c then fixchrName chrRaw else chrRaw) }
            (if c then fixchrName chrRaw else chrRaw) start stop lid lid).names = st.1.names
        rw [insertStep_names]
      | false =>
        rw [processLine_good_some_split c lb lid st line chrRaw start stop s4 hlv]
        obtain ⟨ext, hext⟩ := resolveLabel_names_append st.1.names st.2 (lb ++ ("_") ++ s4)
        refine ⟨ext, ?_⟩
        show (insertStep
            { st.1 with
              names := (resolveLabel st.1.names st.2 (lb ++ ("_") ++ s4)).2.1,
              ib := ibEnsureChr st.1.ib (if c then fixchrName chrRaw else chrRaw) }
            (if c then fixchrName chrRaw else chrRaw) start stop
            (resolveLabel st.1.names st.2 (lb ++ ("_") ++ s4)).1 lid).names = st.1.names ++ ext
        rw [insertStep_names]
        exact hext

/-- A whole file only appends to the name table. -/
theorem processLines_names_append (c fl : Bool) (lb : String) (lid : Nat) (lines : List String) :
    ∀ st : QuantifyRegionsImpl × LabelMap,
      ∃ ext, (processLines c fl lb lid st lines).1.names = st.1.names ++ ext := by
  induction lines with
  | nil =>
    intro st
    refine ⟨[], ?_⟩
    show st.1.names = st.1.names ++ []
    simp
  | cons line rest ih =>
    intro st
    obtain ⟨e1, h1⟩ := processLine_names_append c fl lb lid st line
    obtain ⟨e2, h2⟩ := ih (processLine c fl lb lid st line)
    refine ⟨e1 ++ e2, ?_⟩
    show (processLines c fl lb lid (processLine c fl lb lid st line) rest).1.names = _
    rw [h2, h1, List.append_assoc]

/-- One line keeps every map key stored in the name table. -/
theorem processLine_keys_names (c fl : Bool) (lb : String) (lid : Nat)
    (st : QuantifyRegionsImpl × LabelMap) (line : String)
    (hinv : ∀ n, (alook n st.2).isSome = true → n ∈ st.1.names) :
    ∀ n, (alook n (processLine c fl lb lid st line).2).isSome = true →
      n ∈ (processLine c fl lb lid st line).1.names := by
  intro n hn
  rcases hlv : lineView line with _ | chrRaw | ⟨chrRaw, start, stop, sub⟩
  · rw [processLine_short c fl lb lid st line hlv] at hn ⊢
    exact hinv n hn
  · rw [processLine_bad c fl lb lid st line chrRaw hlv] at hn ⊢
    exact hinv n hn
  · cases sub with
    | none =>
      rw [processLine_good_none c fl lb lid st line chrRaw start stop hlv] at hn ⊢
      show n ∈ (insertStep
          { st.1 with ib := ibEnsureChr st.1.ib (if c then fixchrName chrRaw else chrRaw) }
          (if c then fixchrName chrRaw else chrRaw) start stop lid lid).names
      rw [insertStep_names]
      exact hinv n hn
    | some s4 =>
      cases fl with
      | true =>
        rw [processLine_good_some_fixed c lb lid st line chrRaw start stop s4 hlv] at hn ⊢
        show n ∈ (insertStep
            { st.1 with ib := ibEnsureChr st.1.ib (if c then fixchrName chrRaw else chrRaw) }
            (if c then fixchrName chrRaw else chrRaw) start stop lid lid).names
        rw [insertStep_names]
        exact hinv n hn
      | false =>
        rw [processLine_good_some_split c lb lid st line chrRaw start stop s4 hlv] at hn ⊢
        show n ∈ (insertStep
            { st.1 with
              names := (resolveLabel st.1.names st.2 (lb ++ ("_") ++ s4)).2.1,
              ib := ibEnsureChr st.1.ib (if c then fixchrName chrRaw else chrRaw) }
            (if c then fixchrName chrRaw else chrRaw) start stop
            (resolveLabel st.1.names st.2 (lb ++ ("_") ++ s4)).1 lid).names
        rw [insertStep_names]
        exact resolveLabel_keys_names st.1.names st.2 (lb ++ ("_") ++ s4) hinv n hn

/-- A whole file keeps every map key stored in the name table. -/
theorem processLines_keys_names (c fl : Bool) (lb : String) (lid : Nat) (lines : List String) :
    ∀ st : QuantifyRegionsImpl × LabelMap,
      (∀ n, (alook n st.2).isSome = true → n ∈ st.1.names) →
      ∀ n, (alook n (processLines c fl lb lid st lines).2).isSome = true →
        n ∈ (processLines c fl lb lid st lines).1.names := by
  induction lines with
  | nil =>
    intro st hinv n hn
    exact hinv n hn
  | cons line rest ih =>
    intro st hinv n hn
    exact ih (processLine c fl lb lid st line)
      (processLine_keys_names c fl lb lid st line hinv) n hn

/-- One token only appends to the name table. -/
theorem processToken_names_append (fs : Filesystem) (c : Bool)
    (impl : QuantifyRegionsImpl) (lm : LabelMap) (f : String)
    (i' : QuantifyRegionsImpl) (lm' : LabelMap)
    (h : processToken fs c impl lm f = LoadStep.ok i' lm') :
    ∃ ext, i'.names = impl.names ++ ext := by
  cases hp : parseToken f with
  | none =>
    unfold processToken at h
    simp only [hp] at h
    exact LoadStep.noConfusion h
  | some t =>
    obtain ⟨label, filename, fixed⟩ := t
    cases hfs : fs filename with
    | none =>
      unfold processToken at h
      simp only [hp, hfs] at h
      exact LoadStep.noConfusion h
    | some lines =>
      rw [processToken_eq_ok fs c impl lm f label filename fixed lines hp hfs] at h
      injection h with h1 h2
      obtain ⟨e1, he1⟩ := resolveLabel_names_append impl.names lm label
      obtain ⟨e2, he2⟩ := processLines_names_append c fixed label
        (resolveLabel impl.names lm label).1 lines
        ({ impl with names := (resolveLabel impl.names lm label).2.1 },
         (resolveLabel impl.names lm label).2.2)
      refine ⟨e1 ++ e2, ?_⟩
      rw [← h1, he2]
      show (resolveLabel impl.names lm label).2.1 ++ e2 = impl.names ++ (e1 ++ e2)
      rw [he1, List.append_assoc]

/-- One token keeps every map key stored in the name table. -/
theorem processToken_keys_names (fs : Filesystem) (c : Bool)
    (impl : QuantifyRegionsImpl) (lm : LabelMap) (f : String)
    (i' : QuantifyRegionsImpl) (lm' : LabelMap)
    (h : processToken fs c impl lm f = LoadStep.ok i' lm')
    (hinv : ∀ n, (alook n lm).isSome = true → n ∈ impl.names) :
    ∀ n, (alook n lm').isSome = true → n ∈ i'.names := by
  cases hp : parseToken f with
  | none =>
    unfold processToken at h
    simp only [hp] at h
    exact LoadStep.noConfusion h
  | some t =>
    obtain ⟨label, filename, fixed⟩ := t
    cases hfs : fs filename with
    | none =>
      unfold processToken at h
      simp only [hp, hfs] at h
      exact LoadStep.noConfusion h
    | some lines =>
      rw [processToken_eq_ok fs c impl lm f label filename fixed lines hp hfs] at h
      injection h with h1 h2
      intro n hn
      rw [← h2] at hn
      rw [← h1]
      exact processLines_keys_names c fixed label (resolveLabel impl.names lm label).1 lines
        ({ impl with names := (resolveLabel impl.names lm label).2.1 },
         (resolveLabel impl.names lm label).2.2)
        (fun n2 hn2 => resolveLabel_keys_names impl.names lm label hinv n2 hn2) n hn

/-- A token list only appends to the name table. -/
theorem loadTokens_names_append (fs : Filesystem) (c : Bool) (toks : List String) :
    ∀ impl lm i' lm', loadTokens fs c impl lm toks = LoadStep.ok i' lm' →
      ∃ ext, i'.names = impl.names ++ ext := by
  induction toks with
  | nil =>
    intro impl lm i' lm' h
    unfold loadTokens at h
    injection h with h1 h2
    exact ⟨[], by rw [← h1]; simp⟩
  | cons f rest ih =>
    intro impl lm i' lm' h
    unfold loadTokens at h
    cases hstep : processToken fs c impl lm f with
    | ok ia la =>
      rw [hstep] at h
      obtain ⟨e1, he1⟩ := processToken_names_append fs c impl lm f ia la hstep
      obtain ⟨e2, he2⟩ := ih ia la i' lm' h
      exact ⟨e1 ++ e2, by rw [he2, he1, List.append_assoc]⟩
    | fatal m =>
      rw [hstep] at h
      exact LoadStep.noConfusion h
    | crash =>
      rw [hstep] at h
      exact LoadStep.noConfusion h

/-- A token list keeps every map key stored in the name table. -/
theorem loadTokens_keys_names (fs : Filesystem) (c : Bool) (toks : List String) :
    ∀ impl lm i' lm', loadTokens fs c impl lm toks = LoadStep.ok i' lm' →
      (∀ n, (alook n lm).isSome = true → n ∈ impl.names) →
      ∀ n, (alook n lm').isSome = true → n ∈ i'.names := by
  induction toks with
  | nil =>
    intro impl lm i' lm' h hinv
    unfold loadTokens at h
    injection h with h1 h2
    rw [← h1, ← h2]
    exact hinv
  | cons f rest ih =>
    intro impl lm i' lm' h hinv
    unfold loadTokens at h
    cases hstep : processToken fs c impl lm f with
    | ok ia la =>
      rw [hstep] at h
      exact ih ia la i' lm' h (processToken_keys_names fs c impl lm f ia la hstep hinv)
    | fatal m =>
      rw [hstep] at h
      exact LoadStep.noConfusion h
    | crash =>
      rw [hstep] at h
      exact LoadStep.noConfusion h

end Quantify

namespace Quantify

/-- Extension is reflexive. -/
theorem ibExtends_refl (m : List (String × IntervalBuffer)) : ibExtends m m :=
  fun chr => ⟨[], by simp⟩

/-- Extension is transitive. -/
theorem ibExtends_trans (m1 m2 m3 : List (String × IntervalBuffer))
    (h12 : ibExtends m1 m2) (h23 : ibExtends m2 m3) : ibExtends m1 m3 := by
  intro chr
  obtain ⟨e1, h1⟩ := h12 chr
  obtain ⟨e2, h2⟩ := h23 chr
  exact ⟨e1 ++ e2, by rw [h2, h1, List.append_assoc]⟩

/-- Emplacing an empty chromosome buffer leaves every lookup's value
(empty buffer on a miss) untouched. -/
theorem getD_ensure (m : List (String × IntervalBuffer)) (c0 chr : String) :
    (alook chr (ibEnsureChr m c0)).getD ⟨[]⟩ = (alook chr m).getD ⟨[]⟩ := by
  unfold ibEnsureChr
  by_cases hc : (alook c0 m).isSome = true
  · rw [if_pos hc]
  · rw [if_neg hc]
    cases hm : alook chr m with
    | some v => rw [alook_append_some _ hm]
    | none =>
      rw [alook_append_none _ hm, alook_cons]
      by_cases hq : chr = c0
      · rw [if_pos hq]
        rfl
      · rw [if_neg hq]
        rfl

/-- Buffer emplacement is an extension. -/
theorem ibExtends_ensure (m : List (String × IntervalBuffer)) (c0 : String) :
    ibExtends m (ibEnsureChr m c0) := by
  intro chr
  refine ⟨[], ?_⟩
  rw [getD_ensure, List.append_nil]

/-- Inserting one interval is an extension. -/
theorem ibExtends_addInterval (m : List (String × IntervalBuffer)) (c0 : String)
    (s e : Int) (id : Nat) : ibExtends m (ibAddInterval m c0 s e id) := by
  intro chr
  unfold ibAddInterval
  rw [alook_updateFirst]
  by_cases hq : chr = c0
  · rw [if_pos hq]
    subst hq
    cases hm : alook chr m with
    | none => exact ⟨[], rfl⟩
    | some b => exact ⟨[⟨s, e, id⟩], rfl⟩
  · rw [if_neg hq]
    exact ⟨[], by simp⟩

/-- The two-way credit-and-insert block is an extension. -/
theorem ibExtends_insertStep (impl : QuantifyRegionsImpl) (chr : String)
    (s e : Int) (tid lid : Nat) :
    ibExtends impl.ib (insertStep impl chr s e tid lid).ib := by
  unfold insertStep
  split
  · exact ibExtends_trans impl.ib (ibAddInterval impl.ib chr s e tid)
      (ibAddInterval (ibAddInterval impl.ib chr s e tid) chr s e lid)
      (ibExtends_addInterval impl.ib chr s e tid)
      (ibExtends_addInterval (ibAddInterval impl.ib chr s e tid) chr s e lid)
  · exact ibExtends_addInterval impl.ib chr s e tid

/-- One line is an extension of the interval store. -/
theorem processLine_ib (c fl : Bool) (lb : String) (lid : Nat)
    (st : QuantifyRegionsImpl × LabelMap) (line : String) :
    ibExtends st.1.ib (processLine c fl lb lid st line).1.ib := by
  rcases hlv : lineView line with _ | chrRaw | ⟨chrRaw, start, stop, sub⟩
  · rw [processLine_short c fl lb lid st line hlv]
    exact ibExtends_refl st.1.ib
  · rw [processLine_bad c fl lb lid st line chrRaw hlv]
    exact ibExtends_ensure st.1.ib (if c then fixchrName chrRaw else chrRaw)
  · cases sub with
    | none =>
      rw [processLine_good_none c fl lb lid st line chrRaw start stop hlv]
      exact ibExtends_trans st.1.ib
        (ibEnsureChr st.1.ib (if c then fixchrName chrRaw else chrRaw))
        (insertStep
           { st.1 with ib := ibEnsureChr st.1.ib (if c then fixchrName chrRaw else chrRaw) }
           (if c then fixchrName chrRaw else chrRaw) start stop lid lid).ib
        (ibExtends_ensure st.1.ib (if c then fixchrName chrRaw else chrRaw))
        (ibExtends_insertStep
           { st.1 with ib := ibEnsureChr st.1.ib (if c then fixchrName chrRaw else chrRaw) }
           (if c then fixchrName chrRaw else chrRaw) start stop lid lid)
    | some s4 =>
      cases fl with
      | true =>
        rw [processLine_good_some_fixed c lb lid st line chrRaw start stop s4 hlv]
        exact ibExtends_trans st.1.ib
          (ibEnsureChr st.1.ib (if c then fixchrName chrRaw else chrRaw))
          (insertStep
             { st.1 with ib := ibEnsureChr st.1.ib (if c then fixchrName chrRaw else chrRaw) }
             (if c then fixchrName chrRaw else chrRaw) start stop lid lid).ib
          (ibExtends_ensure st.1.ib (if c then fixchrName chrRaw else chrRaw))
          (ibExtends_insertStep
             { st.1 with ib := ibEnsureChr st.1.ib (if c then fixchrName chrRaw else chrRaw) }
             (if c then fixchrName chrRaw else chrRaw) start stop lid lid)
      | false =>
        rw [processLine_good_some_split c lb lid st line chrRaw start stop s4 hlv]
        exact ibExtends_trans st.1.ib
          (ibEnsureChr st.1.ib (if c then fixchrName chrRaw else chrRaw))
          (insertStep
             { st.1 with
               names := (resolveLabel st.1.names st.2 (lb ++ ("_") ++ s4)).2.1,
               ib := ibEnsureChr st.1.ib (if c then fixchrName chrRaw else chrRaw) }
             (if c then fixchrName chrRaw else chrRaw) start stop
             (resolveLabel st.1.names st.2 (lb ++ ("_") ++ s4)).1 lid).ib
          (ibExtends_ensure st.1.ib (if c then fixchrName chrRaw else chrRaw))
          (ibExtends_insertStep
             { st.1 with
               names := (resolveLabel st.1.names st.2 (lb ++ ("_") ++ s4)).2.1,
               ib := ibEnsureChr st.1.ib (if c then fixchrName chrRaw else chrRaw) }
             (if c then fixchrName chrRaw else chrRaw) start stop
             (resolveLabel st.1.names st.2 (lb ++ ("_") ++ s4)).1 lid)

/-- A whole file is an extension of the interval store. -/
theorem processLines_ib (c fl : Bool) (lb : String) (lid : Nat) (lines : List String) :
    ∀ st : QuantifyRegionsImpl × LabelMap,
      ibExtends st.1.ib (processLines c fl lb lid st lines).1.ib := by
  induction lines with
  | nil =>
    intro st
    exact ibExtends_refl st.1.ib
  | cons line rest ih =>
    intro st
    exact ibExtends_trans st.1.ib (processLine c fl lb lid st line).1.ib
      (processLines c fl lb lid (processLine c fl lb lid st line) rest).1.ib
      (processLine_ib c fl lb lid st line)
      (ih (processLine c fl lb lid st line))

/-- One token is an extension of the interval store. -/
theorem processToken_ib (fs : Filesystem) (c : Bool)
    (impl : QuantifyRegionsImpl) (lm : LabelMap) (f : String)
    (i' : QuantifyRegionsImpl) (lm' : LabelMap)
    (h : processToken fs c impl lm f = LoadStep.ok i' lm') :
    ibExtends impl.ib i'.ib := by
  cases hp : parseToken f with
  | none =>
    unfold processToken at h
    simp only [hp] at h
    exact LoadStep.noConfusion h
  | some t =>
    obtain ⟨label, filename, fixed⟩ := t
    cases hfs : fs filename with
    | none =>
      unfold processToken at h
      simp only [hp, hfs] at h
      exact LoadStep.noConfusion h
    | some lines =>
      rw [processToken_eq_ok fs c impl lm f label filename fixed lines hp hfs] at h
      injection h with h1 h2
      rw [← h1]
      exact processLines_ib c fixed label (resolveLabel impl.names lm label).1 lines
        ({ impl with names := (resolveLabel impl.names lm label).2.1 },
         (resolveLabel impl.names lm label).2.2)

/-- A token list is an extension of the interval store. -/
theorem loadTokens_ib (fs : Filesystem) (c : Bool) (toks : List String) :
    ∀ impl lm i' lm', loadTokens fs c impl lm toks = LoadStep.ok i' lm' →
      ibExtends impl.ib i'.ib := by
  induction toks with
  | nil =>
    intro impl lm i' lm' h
    unfold loadTokens at h
    injection h with h1 h2
    rw [← h1]
    exact ibExtends_refl impl.ib
  | cons f rest ih =>
    intro impl lm i' lm' h
    unfold loadTokens at h
    cases hstep : processToken fs c impl lm f with
    | ok ia la =>
      rw [hstep] at h
      exact ibExtends_trans impl.ib ia.ib i'.ib
        (processToken_ib fs c impl lm f ia la hstep) (ih ia la i' lm' h)
    | fatal m =>
      rw [hstep] at h
      exact LoadStep.noConfusion h
    | crash =>
      rw [hstep] at h
      exact LoadStep.noConfusion h

/-- Overlap queries are monotone under buffer extension. -/
theorem hasOverlap_append (b1 b2 : IntervalBuffer) (ext : List Interval)
    (hext : b2.ivs = b1.ivs ++ ext) (rs re : Int) (id : Nat)
    (h : b1.hasOverlap rs re id = true) : b2.hasOverlap rs re id = true := by
  unfold IntervalBuffer.hasOverlap at h ⊢
  rw [hext, List.any_append, h, Bool.true_or]

/-- Indexing below the boundary ignores a right extension. -/
theorem getD_append_lt (l l2 : List String) (j : Nat) (d : String) (h : j < l.length) :
    (l ++ l2).getD j d = l.getD j d := by
  induction l generalizing j with
  | nil => simp at h
  | cons x xs ih =>
    cases j with
    | zero => rfl
    | succ j2 =>
      show (xs ++ l2).getD j2 d = xs.getD j2 d
      refine ih j2 ?_
      simp only [List.length_cons] at h
      omega

/-- The query loop collects at least as much on extended state. -/
theorem mem_collectMatching_mono (b1 b2 : IntervalBuffer) (ext : List Interval)
    (hext : b2.ivs = b1.ivs ++ ext) (rs re : Int)
    (ns next : List String) (name : String)
    (h : name ∈ collectMatching ns b1 rs re 0) :
    name ∈ collectMatching (ns ++ next) b2 rs re 0 := by
  rw [mem_collectMatching b1 rs re ns 0 name] at h
  obtain ⟨j, hj, hget, hov⟩ := h
  rw [mem_collectMatching b2 rs re (ns ++ next) 0 name]
  refine ⟨j, ?_, ?_, ?_⟩
  · rw [List.length_append]
    omega
  · rw [getD_append_lt ns next j ("") hj]
    exact hget
  · exact hasOverlap_append b1 b2 ext hext rs re (0 + j) hov

/-- The sorted matching-name set of a query is monotone under name-table
and interval-store extension. -/
theorem regionsNames_mono (i1 i2 : QuantifyRegionsImpl) (next : List String)
    (hnames : i2.names = i1.names ++ next) (hib : ibExtends i1.ib i2.ib)
    (chr : String) (rs re : Int) (name : String)
    (h : name ∈ regionsNames i1 chr rs re) : name ∈ regionsNames i2 chr rs re := by
  unfold regionsNames at h ⊢
  cases hm1 : alook chr i1.ib with
  | none =>
    simp only [hm1] at h
    exact absurd h (List.not_mem_nil name)
  | some b1 =>
    simp only [hm1] at h
    rw [mem_setOfList] at h
    obtain ⟨ext, hext⟩ := hib chr
    rw [hm1] at hext
    cases hm2 : alook chr i2.ib with
    | none =>
      rw [hm2] at hext
      have h0 : ([] : List Interval) = b1.ivs ++ ext := hext
      have hnil : b1.ivs = [] := (List.append_eq_nil.mp h0.symm).1
      rw [mem_collectMatching b1 rs re i1.names 0 name] at h
      obtain ⟨j, hj, hget, hov⟩ := h
      unfold IntervalBuffer.hasOverlap at hov
      rw [hnil] at hov
      simp at hov
    | some b2 =>
      rw [hm2] at hext
      have hext2 : b2.ivs = b1.ivs ++ ext := hext
      show name ∈ setOfList (collectMatching i2.names b2 rs re 0)
      rw [mem_setOfList, hnames]
      exact mem_collectMatching_mono b1 b2 ext hext2 rs re i1.names next name h

end Quantify

namespace Quantify

/-- C10.  A second load call on the same engine replaces the
name-to-id map wholesale with only the labels of the second call: a label
present after the first load that no token of the second call can
establish afterwards reports hasRegions false and getRegionSize 0 — yet
its name is still stored in the name table, every chromosome's stored
interval list persists as a prefix of the new one, and the matching-name
set rendered by annotate can therefore still contain that label for any
record it matched before the second load. -/
theorem c10_second_load_shadows (impl0 : QuantifyRegionsImpl)
    (fs1 : Filesystem) (toks1 : List String) (fixchr1 : Bool)
    (i1 : QuantifyRegionsImpl)
    (h1 : load impl0 fs1 toks1 fixchr1 = LoadResult.ok i1)
    (fs2 : Filesystem) (toks2 : List String) (fixchr2 : Bool)
    (i2 : QuantifyRegionsImpl)
    (h2 : load i1 fs2 toks2 fixchr2 = LoadResult.ok i2)
    (name : String) (hn1 : hasRegions i1 name = true)
    (hnot : ∀ f ∈ toks2, ¬ estabBy f name) :
    hasRegions i2 name = false ∧ getRegionSize i2 name = 0 ∧
    name ∈ i2.names ∧ ibExtends i1.ib i2.ib ∧
    ∀ chr rs re, name ∈ regionsNames i1 chr rs re →
      name ∈ regionsNames i2 chr rs re := by
  unfold load at h2
  cases hlt2 : loadTokens fs2 fixchr2 i1 [] toks2 with
  | fatal m =>
    rw [hlt2] at h2
    exact LoadResult.noConfusion h2
  | crash =>
    rw [hlt2] at h2
    exact LoadResult.noConfusion h2
  | ok ia la =>
    rw [hlt2] at h2
    injection h2 with h2e
    have hfalse : hasRegions i2 name = false := by
      cases hx : hasRegions i2 name with
      | false => rfl
      | true =>
        rw [← h2e] at hx
        have hx2 : (alook name la).isSome = true := hx
        cases loadTokens_lm_keys fs2 fixchr2 toks2 i1 [] ia la hlt2 name hx2 with
        | inl h0 => simp [alook] at h0
        | inr h0 =>
          obtain ⟨f, hf, he⟩ := h0
          exact absurd he (hnot f hf)
    have hnone : alook name i2.label_map = none := by
      cases hnn : alook name i2.label_map with
      | none => rfl
      | some v =>
        rw [show hasRegions i2 name = (alook name i2.label_map).isSome from rfl, hnn] at hfalse
        exact Bool.noConfusion hfalse
    have hsize : getRegionSize i2 name = 0 := by
      rw [getRegionSize_eq, hnone]
    have hmem1 : name ∈ i1.names := by
      unfold load at h1
      cases hlt1 : loadTokens fs1 fixchr1 impl0 [] toks1 with
      | fatal m =>
        rw [hlt1] at h1
        exact LoadResult.noConfusion h1
      | crash =>
        rw [hlt1] at h1
        exact LoadResult.noConfusion h1
      | ok ja jla =>
        rw [hlt1] at h1
        injection h1 with h1e
        rw [← h1e] at hn1
        have hx : (alook name jla).isSome = true := hn1
        have hja := loadTokens_keys_names fs1 fixchr1 toks1 impl0 [] ja jla hlt1
          (fun n h0 => absurd h0 (by simp [alook])) name hx
        rw [← h1e]
        exact hja
    obtain ⟨e2, he2⟩ := loadTokens_names_append fs2 fixchr2 toks2 i1 [] ia la hlt2
    have hnames2 : i2.names = i1.names ++ e2 := by
      rw [← h2e]
      exact he2
    have hib2 : ibExtends i1.ib i2.ib := by
      rw [← h2e]
      exact loadTokens_ib fs2 fixchr2 toks2 i1 [] ia la hlt2
    refine ⟨hfalse, hsize, ?_, hib2, ?_⟩
    · rw [hnames2]
      exact List.mem_append_left e2 hmem1
    · intro chr rs re hmemr
      exact regionsNames_mono i1 i2 e2 hnames2 hib2 chr rs re name hmemr

/-- Witness for C10: after loading B:g.bed on the engine that held A, the
label A reports hasRegions false and size 0, yet its name is still in the
name table and the chr1 query at position 0 still lists A among its
matching names. -/
theorem c10_witness :
    hasRegions implB2 ("A") = false ∧ getRegionSize implB2 ("A") = 0 ∧
    ("A") ∈ implB2.names ∧ ("A") ∈ regionsNames implB2 ("chr1") 0 0 := by
  have h := c10_second_load_shadows initImpl fsA [("A:f.bed")] false implA rfl
    fsB [("B:g.bed")] false implB2 rfl ("A") (by decide) ?hnot
  case hnot =>
    intro f hf hest
    rw [List.mem_singleton] at hf
    subst hf
    obtain ⟨l, fn, fx, hp, hname⟩ := hest
    rw [show parseToken ("B:g.bed") = some (("B"), ("g.bed"), false) from rfl] at hp
    injection hp with hp1
    injection hp1 with hl hrest
    subst hl
    cases hname with
    | inl h0 => exact absurd h0 (by decide)
    | inr h0 =>
      obtain ⟨s, hs⟩ := h0
      have hd := congrArg String.data hs
      rw [show ((("B") : String) ++ ("_") ++ s).data = 'B' :: '_' :: s.data from rfl,
          show (("A") : String).data = ['A'] from rfl] at hd
      injection hd with hc hr
      exact absurd hc (by decide)
  exact ⟨h.1, h.2.1, h.2.2.1, h.2.2.2.2 ("chr1") 0 0 (by decide)⟩

end Quantify
